import Mathlib

/-!
Verification of the duplicate-detection core of the obsidian-deduplicator
plugin, shallowly embedded from the TypeScript sources.

Conventions of the embedding:
* JavaScript numbers that only ever hold integers (sizes, timestamps,
  counters) are modelled as `Nat`/`Int`; fractional scores and ratios are
  modelled as `ℚ` or `ℝ` (`Math.sqrt` forces `ℝ` for the cosine score).
* A JavaScript object used as a string-keyed map (and the ES `Map`, whose
  iteration order is insertion order) is modelled as an association list
  `List (key × value)`; assignment to an existing key keeps its position,
  assignment to a fresh key appends.
* Dynamic records whose required fields may be missing or of the wrong
  type (`undefined`) are modelled with `Option` fields.
* `async` code is modelled sequentially (the plugin runs on the single
  cooperative JavaScript thread; batches only interleave UI work).
* A thrown exception is modelled by `Option`/`none` results.
-/

namespace Dedup

/-- duplicateType values of `DeduplicatorSettings` (src/types/index.ts). -/
inductive MatchType
  | exact
  | canonical
  | near
deriving DecidableEq, Repr

/-- An Obsidian `TFile` as the scanner reads it: stable vault path plus
the stat fields `size` (bytes) and `mtime` (integer timestamp). -/
structure TFile where
  path : String
  size : Nat
  mtime : Nat
deriving DecidableEq, Repr

/-- A dynamic `FileMeta` record (src/types/index.ts) as it may reach
`DuplicateRegistry.set`: the fields `mtime`, `size` and `hash` are
required by the interface but a malformed record may lack them or hold a
value of the wrong type, which is modelled by `none`.  The remaining
fields are optional in the interface itself.  `path` is stamped in by the
registry. -/
structure RawMeta where
  mtime : Option Int
  size : Option Int
  hash : Option String
  matchType : Option MatchType := none
  normalizedHash : Option String := none
  contentHash : Option String := none
  path : Option String := none
deriving DecidableEq, Repr

/-- Association-list update with JavaScript object/Map semantics:
an existing key keeps its position and gets the new value, a fresh key is
appended at the end. -/
def setEntry {α β : Type} [DecidableEq α] (l : List (α × β)) (k : α) (v : β) :
    List (α × β) :=
  match l with
  | [] => [(k, v)]
  | (k', v') :: rest =>
    if k' = k then (k, v) :: rest else (k', v') :: setEntry rest k v

/-- Association-list removal (JavaScript `delete` / `Map.delete`). -/
def delEntry {α β : Type} [DecidableEq α] (l : List (α × β)) (k : α) :
    List (α × β) :=
  match l with
  | [] => []
  | (k', v') :: rest =>
    if k' = k then rest else (k', v') :: delEntry rest k

/-- Association-list lookup (property read / `Map.get`); `none` models
`undefined`. -/
def getEntry {α β : Type} [DecidableEq α] (l : List (α × β)) (k : α) : Option β :=
  match l with
  | [] => none
  | (k', v') :: rest => if k' = k then some v' else getEntry rest k

theorem getEntry_setEntry_self {α β : Type} [DecidableEq α] (l : List (α × β))
    (k : α) (v : β) : getEntry (setEntry l k v) k = some v := by
  induction l with
  | nil => simp [setEntry, getEntry]
  | cons hd tl ih =>
    obtain ⟨k', v'⟩ := hd
    by_cases h : k' = k <;> simp [setEntry, getEntry, h, ih]

theorem getEntry_setEntry_ne {α β : Type} [DecidableEq α] (l : List (α × β))
    (k q : α) (v : β) (hne : q ≠ k) :
    getEntry (setEntry l k v) q = getEntry l q := by
  induction l with
  | nil => simp [setEntry, getEntry, Ne.symm hne]
  | cons hd tl ih =>
    obtain ⟨k', v'⟩ := hd
    by_cases h : k' = k
    · subst h
      simp [setEntry, getEntry, Ne.symm hne]
    · by_cases h2 : k' = q
      · subst h2
        simp [setEntry, getEntry, h, Ne.symm hne, ih]
      · simp [setEntry, getEntry, h, h2, ih]

theorem length_setEntry {α β : Type} [DecidableEq α] (l : List (α × β)) (k : α)
    (v : β) :
    (setEntry l k v).length =
      if (getEntry l k).isSome then l.length else l.length + 1 := by
  induction l with
  | nil => simp [setEntry, getEntry]
  | cons hd tl ih =>
    obtain ⟨k', v'⟩ := hd
    by_cases h : k' = k
    · simp [setEntry, getEntry, h]
    · simp only [setEntry, getEntry, h, if_false, List.length_cons, ih]
      by_cases h2 : (getEntry tl k).isSome
      · simp [h2]
      · simp [h2]

/-- In-memory store of the `DuplicateRegistry`
(src/services/duplicateRegistry.ts): a path-keyed record object. -/
structure DuplicateRegistry where
  map : List (String × RawMeta)
deriving DecidableEq, Repr

/-- DuplicateRegistry.isValidFileMeta: the record must exist and have a
numeric `mtime`, a numeric `size` and a nonempty string `hash`.  Note the
code does not constrain the sign of `size`. -/
def isValidFileMeta (meta : RawMeta) : Bool :=
  meta.mtime.isSome && meta.size.isSome &&
    (match meta.hash with
     | some h => decide (0 < h.length)
     | none => false)

/-- DuplicateRegistry.get; the guard mirrors the falsy-path check
`if (!path || typeof path !== "string")`. -/
def DuplicateRegistry.get (r : DuplicateRegistry) (path : String) :
    Option RawMeta :=
  if path = "" then none else getEntry r.map path

/-- DuplicateRegistry.set: invalid paths and invalid metadata are ignored
with a warning (the function returns without writing and without
throwing); a valid record is stored with `path` stamped in. -/
def DuplicateRegistry.set (r : DuplicateRegistry) (path : String)
    (meta : RawMeta) : DuplicateRegistry :=
  if path = "" then r
  else if isValidFileMeta meta then
    ⟨setEntry r.map path { meta with path := some path }⟩
  else r

/-- DuplicateRegistry.remove. -/
def DuplicateRegistry.remove (r : DuplicateRegistry) (path : String) :
    DuplicateRegistry :=
  if path = "" then r else ⟨delEntry r.map path⟩

/-- DuplicateRegistry.clear. -/
def DuplicateRegistry.clear (_ : DuplicateRegistry) : DuplicateRegistry :=
  ⟨[]⟩

/-- DuplicateRegistry.size: `Object.keys(this.map).length`. -/
def DuplicateRegistry.size (r : DuplicateRegistry) : Nat :=
  r.map.length

/-- DuplicateRegistry.validateHashMap, used by the constructor: invalid
entries of an externally supplied snapshot are dropped. -/
def validateHashMap (m : List (String × RawMeta)) : List (String × RawMeta) :=
  m.filter (fun e => isValidFileMeta e.2)

/-- A record whose required `size` field is present but negative.  It
passes `isValidFileMeta`, which only checks `typeof meta.size` is a
number. -/
def negSizeMeta : RawMeta :=
  { mtime := some 0, size := some (-1), hash := some "h" }

/-- C3, counterexample: claim C3 lists a negative `size` among the
malformed records that `DuplicateRegistry.set` must ignore, but
`isValidFileMeta` only checks that `size` is a number, so a record with
`size = -1` is accepted and written: on an empty registry the entry count
grows from 0 to 1 and `get` afterwards returns the stored record. -/
theorem registry_set_accepts_negative_size :
    negSizeMeta.size = some (-1) ∧
    (DuplicateRegistry.mk []).size = 0 ∧
    (DuplicateRegistry.size ((DuplicateRegistry.mk []).set "a.md" negSizeMeta))
      = 1 ∧
    ((DuplicateRegistry.mk []).set "a.md" negSizeMeta).get "a.md"
      = some { negSizeMeta with path := some "a.md" } := by
  decide

/-- C3 (amended): for every path and every record that is missing its
`mtime`, `size` or `hash` field or whose `hash` is the empty string,
`DuplicateRegistry.set` leaves the registry completely unchanged — in
particular a subsequent `get` returns what it returned before and
`size()` is unchanged — and the call returns normally instead of
throwing (the embedded `set` is a total function).  A record whose
`size` is a negative number, however, is accepted and written. -/
theorem registry_set_ignores_malformed (r : DuplicateRegistry) (p : String)
    (m : RawMeta)
    (hbad : m.mtime = none ∨ m.size = none ∨ m.hash = none ∨
      m.hash = some "") :
    DuplicateRegistry.set r p m = r ∧
    (DuplicateRegistry.set r p m).get p = r.get p ∧
    (DuplicateRegistry.set r p m).size = r.size := by
  have hval : isValidFileMeta m = false := by
    rcases hbad with h | h | h | h
    · simp [isValidFileMeta, h]
    · simp [isValidFileMeta, h]
    · simp [isValidFileMeta, h]
    · simp [isValidFileMeta, h]
  have hset : DuplicateRegistry.set r p m = r := by
    unfold DuplicateRegistry.set
    by_cases hp : p = ""
    · simp [hp]
    · simp [hp, hval]
  exact ⟨hset, by rw [hset], by rw [hset]⟩

/-- Witness for C3: a concrete malformed record (empty hash string) on a
concrete one-entry registry. -/
def emptyHashMeta : RawMeta :=
  { mtime := some 5, size := some 12, hash := some "" }

/-- Witness instantiating `registry_set_ignores_malformed` at a concrete
registry, path and malformed record. -/
theorem registry_set_ignores_malformed_witness :
    (emptyHashMeta.mtime = none ∨ emptyHashMeta.size = none ∨
      emptyHashMeta.hash = none ∨ emptyHashMeta.hash = some "") ∧
    (DuplicateRegistry.set (DuplicateRegistry.mk [("x.md", negSizeMeta)])
        "note.md" emptyHashMeta = DuplicateRegistry.mk [("x.md", negSizeMeta)] ∧
      (DuplicateRegistry.set (DuplicateRegistry.mk [("x.md", negSizeMeta)])
          "note.md" emptyHashMeta).get "note.md"
        = (DuplicateRegistry.mk [("x.md", negSizeMeta)]).get "note.md" ∧
      (DuplicateRegistry.set (DuplicateRegistry.mk [("x.md", negSizeMeta)])
          "note.md" emptyHashMeta).size
        = (DuplicateRegistry.mk [("x.md", negSizeMeta)]).size) :=
  ⟨by decide, registry_set_ignores_malformed _ _ _ (by decide)⟩

/-- Lower-case hex digit of a value below 16 (JavaScript
`Number.prototype.toString(16)` digits). -/
def hexChar (n : Nat) : Char :=
  if n < 10 then Char.ofNat (48 + n) else Char.ofNat (87 + n)

/-- Two-digit lower-case hex rendering of one byte:
`b.toString(16).padStart(2, "0")` for `b < 256`. -/
def hexByte (b : Nat) : String :=
  String.mk [hexChar (b / 16 % 16), hexChar (b % 16)]

/-- Hex string of a digest: `Array.from(new Uint8Array(digest)).map(b =>
b.toString(16).padStart(2, "0")).join("")` in `sha256`
(src/utils/crypto.ts).  The SHA-256 digest itself is produced by the
external Web Crypto collaborator and enters the model as a context
function. -/
def sha256hex : List Nat → String
  | [] => ""
  | b :: rest => hexByte b ++ sha256hex rest

theorem sha256hex_length (bytes : List Nat) :
    (sha256hex bytes).length = 2 * bytes.length := by
  induction bytes with
  | nil => rfl
  | cons b rest ih =>
    simp only [sha256hex, String.length_append, ih, hexByte, String.length_mk,
      List.length_cons, List.length_nil]
    omega

/-- UTF-8 encoding of a string (`new TextEncoder().encode(content)`). -/
def utf8Bytes (s : String) : List Nat :=
  s.toUTF8.toList.map UInt8.toNat

/-- The `DeduplicatorSettings` fields the scanner consults
(src/settings.ts); the remaining fields configure the presentation layer
and the LLM transport and do not influence the scanning logic. -/
structure Settings where
  duplicateType : MatchType
  similarityThreshold : ℚ
  ignorePaths : List String
  sizeCapMB : ℚ
  enableLLM : Bool

/-- The scanner environment: its settings plus the external collaborators
of the spec (the vault document store, the Web Crypto digest, the
regex-based text normalizer and the semantic-similarity service).  The
collaborators are deterministic functions; a `none` result models a
thrown/rejected call.  `digest_len` records that a SHA-256 digest is
always 32 bytes. -/
structure ScanCtx where
  settings : Settings
  files : List TFile
  readBinary : String → Option (List Nat)
  readText : String → Option String
  digest : List Nat → List Nat
  digest_len : ∀ b, (digest b).length = 32
  normalizeText : String → String
  judgeSim : String → String → Option ℝ
  vectorSim : List ℝ → List ℝ → ℝ
  embed : String → Option (List ℝ)

/-- The cache-hit test of DuplicateScanner.processFile (src/settings.ts
lines 490-494): the stored record must match the current `mtime` and
`size` AND have been produced under the same `duplicateType`. -/
def CacheHit (ctx : ScanCtx) (f : TFile) (cached : RawMeta) : Prop :=
  cached.mtime = some (f.mtime : Int) ∧ cached.size = some (f.size : Int) ∧
    cached.matchType = some ctx.settings.duplicateType

instance (ctx : ScanCtx) (f : TFile) (cached : RawMeta) :
    Decidable (CacheHit ctx f cached) := by
  unfold CacheHit; infer_instance

/-- The metadata record computed on a cache miss: the exact binary hash is
always computed; in canonical mode the normalized text hash is added,
falling back to the binary hash when the text read fails. -/
def computeFileMeta (ctx : ScanCtx) (f : TFile) (data : List Nat) : RawMeta :=
  let exactHash := sha256hex (ctx.digest data)
  let base : RawMeta :=
    { mtime := some (f.mtime : Int), size := some (f.size : Int),
      hash := some exactHash, matchType := some ctx.settings.duplicateType,
      contentHash := some exactHash }
  if ctx.settings.duplicateType = .canonical then
    { base with
      normalizedHash := some (match ctx.readText f.path with
        | some text =>
          sha256hex (ctx.digest (utf8Bytes (ctx.normalizeText text)))
        | none => exactHash) }
  else base

/-- The cache-miss path of DuplicateScanner.processFile: read the raw
bytes (one `adapter.readBinary` call, counted in the third component),
hash them, store the record.  A failing read throws (`none`) after the
read attempt. -/
def processFileCompute (ctx : ScanCtx) (r : DuplicateRegistry) (f : TFile) :
    Option RawMeta × DuplicateRegistry × Nat :=
  match ctx.readBinary f.path with
  | none => (none, r, 1)
  | some data =>
    let meta := computeFileMeta ctx f data
    (some meta, r.set f.path meta, 1)

/-- DuplicateScanner.processFile (src/settings.ts lines 484-529).  The
result triple is (returned metadata or thrown, registry after the call,
number of binary byte-reads performed). -/
def processFile (ctx : ScanCtx) (r : DuplicateRegistry) (f : TFile) :
    Option RawMeta × DuplicateRegistry × Nat :=
  if f.path = "" then (none, r, 0)
  else
    match r.get f.path with
    | some cached =>
      if CacheHit ctx f cached then (some cached, r, 0)
      else processFileCompute ctx r f
    | none => processFileCompute ctx r f

theorem isValidFileMeta_computeFileMeta (ctx : ScanCtx) (f : TFile)
    (data : List Nat) : isValidFileMeta (computeFileMeta ctx f data) = true := by
  have hlen : (sha256hex (ctx.digest data)).length = 64 := by
    rw [sha256hex_length, ctx.digest_len]
  unfold computeFileMeta isValidFileMeta
  by_cases h : ctx.settings.duplicateType = .canonical
  · simp [h, hlen]
  · simp [h, hlen]

/-- A concrete all-zero stand-in for the external SHA-256 digest. -/
def digest0 : List Nat → List Nat := fun _ => List.replicate 32 0

/-- A concrete scanner context in exact mode over a one-file vault, used
by concrete instances below. -/
noncomputable def ctxC1 : ScanCtx :=
  { settings :=
      { duplicateType := .exact, similarityThreshold := 80,
        ignorePaths := [], sizeCapMB := 5, enableLLM := false },
    files := [⟨"a.md", 1, 10⟩],
    readBinary := fun _ => some [0, 1],
    readText := fun _ => none,
    digest := digest0,
    digest_len := fun b => by simp [digest0],
    normalizeText := id,
    judgeSim := fun _ _ => none,
    vectorSim := fun _ _ => 0,
    embed := fun _ => none }

/-- The file of the one-file vault of `ctxC1`. -/
def fC1 : TFile := ⟨"a.md", 1, 10⟩

/-- A registry record whose `mtime` and `size` match `fC1` exactly but
which carries no `matchType` (for example a record written by an earlier
plugin version). -/
def staleMeta : RawMeta :=
  { mtime := some 10, size := some 1, hash := some "h" }

/-- C1, counterexample: the stored record matches the current size and
mtime of the document, yet `processFile` performs one byte-read and
overwrites the record, because the cache-hit test additionally requires
the stored `matchType` to equal the configured duplicateType and
`staleMeta` has none.  Claim C1 asserts no read and no overwrite here. -/
theorem processFile_rereads_on_matchType_mismatch :
    staleMeta.mtime = some (fC1.mtime : Int) ∧
    staleMeta.size = some (fC1.size : Int) ∧
    (processFile ctxC1 (DuplicateRegistry.mk [("a.md", staleMeta)]) fC1).2.2
      = 1 ∧
    (processFile ctxC1 (DuplicateRegistry.mk [("a.md", staleMeta)]) fC1).2.1
      ≠ DuplicateRegistry.mk [("a.md", staleMeta)] := by
  decide

/-- C1 (amended): for every document with a registry record whose stored
size, mtime AND matchType all match the current document and the
configured duplicateType, `processFile` returns the stored record with
zero byte-reads and an unchanged registry; when the lookup misses or any
of the three fields differs, exactly one byte-read occurs and the freshly
recomputed record overwrites the registry entry. -/
theorem processFile_cache_correct (ctx : ScanCtx) (r : DuplicateRegistry)
    (f : TFile) :
    (∀ cached, r.get f.path = some cached → CacheHit ctx f cached →
      processFile ctx r f = (some cached, r, 0)) ∧
    (∀ data, f.path ≠ "" →
      (∀ cached, r.get f.path = some cached → ¬ CacheHit ctx f cached) →
      ctx.readBinary f.path = some data →
      processFile ctx r f =
        (some (computeFileMeta ctx f data),
          DuplicateRegistry.set r f.path (computeFileMeta ctx f data), 1) ∧
      (DuplicateRegistry.set r f.path (computeFileMeta ctx f data)).get f.path
        = some { computeFileMeta ctx f data with path := some f.path }) := by
  constructor
  · intro cached hget hhit
    have hpath : f.path ≠ "" := by
      intro h0
      rw [DuplicateRegistry.get, if_pos h0] at hget
      exact Option.noConfusion hget
    unfold processFile
    rw [if_neg hpath, hget]
    simp [hhit]
  · intro data hpath hmiss hread
    have hcompute : processFileCompute ctx r f =
        (some (computeFileMeta ctx f data),
          DuplicateRegistry.set r f.path (computeFileMeta ctx f data), 1) := by
      unfold processFileCompute
      rw [hread]
    have hget : (DuplicateRegistry.set r f.path
          (computeFileMeta ctx f data)).get f.path
        = some { computeFileMeta ctx f data with path := some f.path } := by
      unfold DuplicateRegistry.set DuplicateRegistry.get
      rw [if_neg hpath, isValidFileMeta_computeFileMeta, if_pos rfl,
        if_neg hpath]
      exact getEntry_setEntry_self _ _ _
    refine ⟨?_, hget⟩
    unfold processFile
    rw [if_neg hpath]
    cases hcase : r.get f.path with
    | none => exact hcompute
    | some cached => simp [hmiss cached hcase, hcompute]

/-- A registry record that fully matches `fC1` under exact mode. -/
def hitMeta : RawMeta :=
  { mtime := some 10, size := some 1, hash := some "h",
    matchType := some .exact }

/-- Witness instantiating both branches of `processFile_cache_correct` at
concrete inputs: a full hit returns the stored record with zero reads; a
matchType-less record forces one read and an overwrite. -/
theorem processFile_cache_correct_witness :
    processFile ctxC1 (DuplicateRegistry.mk [("a.md", hitMeta)]) fC1 =
      (some hitMeta, DuplicateRegistry.mk [("a.md", hitMeta)], 0) ∧
    (processFile ctxC1 (DuplicateRegistry.mk [("a.md", staleMeta)]) fC1 =
        (some (computeFileMeta ctxC1 fC1 [0, 1]),
          DuplicateRegistry.set (DuplicateRegistry.mk [("a.md", staleMeta)])
            fC1.path (computeFileMeta ctxC1 fC1 [0, 1]), 1) ∧
      (DuplicateRegistry.set (DuplicateRegistry.mk [("a.md", staleMeta)])
          fC1.path (computeFileMeta ctxC1 fC1 [0, 1])).get fC1.path
        = some { computeFileMeta ctxC1 fC1 [0, 1] with
            path := some fC1.path }) :=
  ⟨(processFile_cache_correct ctxC1 (DuplicateRegistry.mk [("a.md", hitMeta)])
      fC1).1 hitMeta (by decide) (by decide),
   (processFile_cache_correct ctxC1 (DuplicateRegistry.mk [("a.md", staleMeta)])
      fC1).2 [0, 1] (by decide)
      (by
        intro c hc
        have h0 : (DuplicateRegistry.mk [("a.md", staleMeta)]).get fC1.path
            = some staleMeta := by decide
        rw [h0] at hc
        cases hc
        decide)
      rfl⟩

/-- DuplicateScanner.getHashKey (src/settings.ts lines 469-477): the
grouping key is `meta.normalizedHash || meta.hash` in canonical mode and
`meta.hash` otherwise.  `none` models the `undefined` key a record
without a `hash` field would produce; a falsy (absent or empty)
`normalizedHash` falls back to `hash`. -/
def getHashKey (ctx : ScanCtx) (meta : RawMeta) : Option String :=
  match ctx.settings.duplicateType with
  | .canonical =>
    match meta.normalizedHash with
    | some h => if h = "" then meta.hash else some h
    | none => meta.hash
  | _ => meta.hash

/-- A `DuplicateGroup` (src/types/index.ts). -/
structure DuplicateGroup where
  hash : Option String
  files : List TFile
  matchType : Option MatchType := none
  similarityScore : Option ℝ := none

/-- One step of the hash-grouping loop of scanExactDuplicates: append the
file to the bucket of its key (`if (!groups.has(hashKey)) groups.set(hashKey,
[]); groups.get(hashKey)!.push(file)`). -/
def pushGroup (gm : List (Option String × List TFile)) (k : Option String)
    (f : TFile) : List (Option String × List TFile) :=
  setEntry gm k ((getEntry gm k).getD [] ++ [f])

/-- One per-file iteration of scanExactDuplicates: process the file and
bucket it by its hash key; a processing error skips the file. -/
def scanExactStep (ctx : ScanCtx)
    (st : DuplicateRegistry × List (Option String × List TFile)) (f : TFile) :
    DuplicateRegistry × List (Option String × List TFile) :=
  match processFile ctx st.1 f with
  | (some meta, r', _) => (r', pushGroup st.2 (getHashKey ctx meta) f)
  | (none, r', _) => (r', st.2)

/-- DuplicateScanner.scanExactDuplicates (src/settings.ts lines 90-137):
process every file, bucket by hash key, and emit every bucket with more
than one member as a `DuplicateGroup`.  The batching only interleaves UI
updates and is modelled as the sequential fold. -/
def scanExactDuplicates (ctx : ScanCtx) (r : DuplicateRegistry)
    (files : List TFile) : List DuplicateGroup × DuplicateRegistry :=
  let st := files.foldl (scanExactStep ctx) (r, [])
  (st.2.filterMap (fun e =>
      if 1 < e.2.length then
        some { hash := e.1, files := e.2,
               matchType := some ctx.settings.duplicateType }
      else none),
   st.1)

/-- A document is processable iff it has a nonempty path and its bytes
are readable; under an honest registry this is exactly when `processFile`
succeeds. -/
def ProcessedOK (ctx : ScanCtx) (f : TFile) : Prop :=
  f.path ≠ "" ∧ (ctx.readBinary f.path).isSome = true

instance (ctx : ScanCtx) (f : TFile) : Decidable (ProcessedOK ctx f) := by
  unfold ProcessedOK; infer_instance

/-- The hash key a document obtains when its record is recomputed from
its current bytes. -/
def fileKey (ctx : ScanCtx) (f : TFile) : Option String :=
  match ctx.readBinary f.path with
  | some data => getHashKey ctx (computeFileMeta ctx f data)
  | none => none

/-- Registry integrity: every stored record that would be accepted as a
cache hit for one of the scanned documents was produced from that
document's current bytes, so it carries the key recomputation would
produce and the bytes are readable.  The empty registry is honest, and
the scan itself preserves honesty. -/
def HonestFor (ctx : ScanCtx) (files : List TFile) (r : DuplicateRegistry) :
    Prop :=
  ∀ f ∈ files, ∀ rec, r.get f.path = some rec → CacheHit ctx f rec →
    (ctx.readBinary f.path).isSome = true ∧
    getHashKey ctx rec = fileKey ctx f

theorem getHashKey_stamp (ctx : ScanCtx) (m : RawMeta) (p : String) :
    getHashKey ctx { m with path := some p } = getHashKey ctx m := by
  unfold getHashKey
  cases ctx.settings.duplicateType <;> rfl

theorem getHashKey_computeFileMeta_path_eq (ctx : ScanCtx) (f g : TFile)
    (d : List Nat) (hp : f.path = g.path) :
    getHashKey ctx (computeFileMeta ctx f d)
      = getHashKey ctx (computeFileMeta ctx g d) := by
  unfold getHashKey computeFileMeta
  cases hmt : ctx.settings.duplicateType <;> simp [hmt, hp]

theorem registry_get_set_ne (r : DuplicateRegistry) (p q : String)
    (m : RawMeta) (hq : q ≠ p) : (r.set p m).get q = r.get q := by
  unfold DuplicateRegistry.set
  by_cases hp : p = ""
  · simp [hp]
  · by_cases hv : isValidFileMeta m
    · simp only [hp, if_false, hv, if_true]
      unfold DuplicateRegistry.get
      by_cases hq0 : q = ""
      · simp [hq0]
      · simp [hq0, getEntry_setEntry_ne _ _ _ _ hq]
    · simp [hp, hv]

theorem cacheHit_stamp (ctx : ScanCtx) (g : TFile) (m : RawMeta)
    (p : String) : CacheHit ctx g { m with path := some p } ↔ CacheHit ctx g m :=
  Iff.rfl

theorem registry_get_set_valid_self (r : DuplicateRegistry) (p : String)
    (m : RawMeta) (hp : p ≠ "") (hv : isValidFileMeta m = true) :
    (r.set p m).get p = some { m with path := some p } := by
  unfold DuplicateRegistry.set DuplicateRegistry.get
  rw [if_neg hp, hv, if_pos rfl, if_neg hp]
  exact getEntry_setEntry_self _ _ _

theorem processFile_eq_throw (ctx : ScanCtx) (r : DuplicateRegistry)
    (f : TFile) (hpath : f.path = "") : processFile ctx r f = (none, r, 0) := by
  unfold processFile
  rw [if_pos hpath]

theorem processFile_eq_hit (ctx : ScanCtx) (r : DuplicateRegistry) (f : TFile)
    (cached : RawMeta) (hget : r.get f.path = some cached)
    (hhit : CacheHit ctx f cached) :
    processFile ctx r f = (some cached, r, 0) := by
  have hpath : f.path ≠ "" := by
    intro h0
    rw [DuplicateRegistry.get, if_pos h0] at hget
    exact Option.noConfusion hget
  unfold processFile
  rw [if_neg hpath, hget]
  simp [hhit]

theorem processFile_eq_compute (ctx : ScanCtx) (r : DuplicateRegistry)
    (f : TFile) (hpath : f.path ≠ "")
    (hmiss : ∀ cached, r.get f.path = some cached → ¬ CacheHit ctx f cached) :
    processFile ctx r f = processFileCompute ctx r f := by
  unfold processFile
  rw [if_neg hpath]
  cases hget : r.get f.path with
  | none => rfl
  | some cached => simp [hmiss cached hget]

theorem processFileCompute_eq_none (ctx : ScanCtx) (r : DuplicateRegistry)
    (f : TFile) (hread : ctx.readBinary f.path = none) :
    processFileCompute ctx r f = (none, r, 1) := by
  unfold processFileCompute
  rw [hread]

theorem processFileCompute_eq_some (ctx : ScanCtx) (r : DuplicateRegistry)
    (f : TFile) (data : List Nat) (hread : ctx.readBinary f.path = some data) :
    processFileCompute ctx r f =
      (some (computeFileMeta ctx f data),
        r.set f.path (computeFileMeta ctx f data), 1) := by
  unfold processFileCompute
  rw [hread]

theorem processFileCompute_spec_honest (ctx : ScanCtx) (files : List TFile)
    (r : DuplicateRegistry) (f : TFile) (hpath : f.path ≠ "")
    (hr : HonestFor ctx files r) :
    HonestFor ctx files (processFileCompute ctx r f).2.1 ∧
    ((processFileCompute ctx r f).1.isSome ↔ ProcessedOK ctx f) ∧
    (∀ meta, (processFileCompute ctx r f).1 = some meta →
      getHashKey ctx meta = fileKey ctx f) := by
  cases hread : ctx.readBinary f.path with
  | none =>
    rw [processFileCompute_eq_none ctx r f hread]
    refine ⟨hr, ?_, ?_⟩
    · simp [ProcessedOK, hread]
    · intro meta hm
      exact absurd hm (by simp)
  | some data =>
    rw [processFileCompute_eq_some ctx r f data hread]
    refine ⟨?_, ?_, ?_⟩
    · intro g hg rec hrec hhit
      by_cases hgp : g.path = f.path
      · rw [hgp, registry_get_set_valid_self r f.path _ hpath
          (isValidFileMeta_computeFileMeta ctx f data)] at hrec
        cases hrec
        refine ⟨by rw [hgp, hread]; rfl, ?_⟩
        rw [getHashKey_stamp]
        unfold fileKey
        rw [hgp, hread]
        exact getHashKey_computeFileMeta_path_eq ctx f g data hgp.symm
      · rw [registry_get_set_ne r f.path g.path _ hgp] at hrec
        exact hr g hg rec hrec hhit
    · simp [ProcessedOK, hpath, hread]
    · intro meta hm
      cases hm
      unfold fileKey
      rw [hread]

/-- Core processFile specification under an honest registry: honesty is
preserved, success is equivalent to `ProcessedOK`, and a successful
result carries the key `fileKey`. -/
theorem processFile_spec_honest (ctx : ScanCtx) (files : List TFile)
    (r : DuplicateRegistry) (f : TFile) (hf : f ∈ files)
    (hr : HonestFor ctx files r) :
    HonestFor ctx files (processFile ctx r f).2.1 ∧
    ((processFile ctx r f).1.isSome ↔ ProcessedOK ctx f) ∧
    (∀ meta, (processFile ctx r f).1 = some meta →
      getHashKey ctx meta = fileKey ctx f) := by
  by_cases hpath : f.path = ""
  · rw [processFile_eq_throw ctx r f hpath]
    refine ⟨hr, by simp [ProcessedOK, hpath], ?_⟩
    intro meta hm
    exact absurd hm (by simp)
  · by_cases hhit : ∃ cached, r.get f.path = some cached ∧ CacheHit ctx f cached
    · obtain ⟨cached, hget, hcht⟩ := hhit
      rw [processFile_eq_hit ctx r f cached hget hcht]
      have hhonest := hr f hf cached hget hcht
      refine ⟨hr, by simp [ProcessedOK, hpath, hhonest.1], ?_⟩
      intro meta hm
      cases hm
      exact hhonest.2
    · have hmiss : ∀ cached, r.get f.path = some cached →
          ¬ CacheHit ctx f cached := by
        intro cached hget hcht
        exact hhit ⟨cached, hget, hcht⟩
      rw [processFile_eq_compute ctx r f hpath hmiss]
      exact processFileCompute_spec_honest ctx files r f hpath hr

theorem getEntry_eq_none_iff {α β : Type} [DecidableEq α]
    (l : List (α × β)) (k : α) :
    getEntry l k = none ↔ k ∉ l.map Prod.fst := by
  induction l with
  | nil => simp [getEntry]
  | cons hd tl ih =>
    obtain ⟨k', v'⟩ := hd
    by_cases hk : k' = k
    · subst hk
      simp [getEntry]
    · simp [getEntry, hk, ih, Ne.symm hk]

theorem keys_setEntry {α β : Type} [DecidableEq α] (l : List (α × β)) (k : α)
    (v : β) :
    (setEntry l k v).map Prod.fst =
      if (getEntry l k).isSome then l.map Prod.fst
      else l.map Prod.fst ++ [k] := by
  induction l with
  | nil => simp [setEntry, getEntry]
  | cons hd tl ih =>
    obtain ⟨k', v'⟩ := hd
    by_cases hk : k' = k
    · subst hk
      simp [setEntry, getEntry]
    · simp only [setEntry, hk, if_false, List.map_cons, getEntry, ih]
      by_cases h2 : (getEntry tl k).isSome
      · simp [h2]
      · simp [h2]

theorem nodup_keys_setEntry {α β : Type} [DecidableEq α]
    (l : List (α × β)) (k : α) (v : β) (h : (l.map Prod.fst).Nodup) :
    ((setEntry l k v).map Prod.fst).Nodup := by
  rw [keys_setEntry]
  by_cases h2 : (getEntry l k).isSome
  · simp [h2, h]
  · have hnone : getEntry l k = none := by
      cases hg : getEntry l k
      · rfl
      · rw [hg] at h2; simp at h2
    have hk : k ∉ l.map Prod.fst := (getEntry_eq_none_iff l k).mp hnone
    simp only [hnone, Option.isSome_none, Bool.false_eq_true, if_false,
      List.nodup_append]
    exact ⟨h, List.nodup_singleton k, by simpa using hk⟩

theorem mem_of_getEntry_eq_some {α β : Type} [DecidableEq α]
    (l : List (α × β)) (k : α) (v : β) (h : getEntry l k = some v) :
    (k, v) ∈ l := by
  induction l with
  | nil => simp [getEntry] at h
  | cons hd tl ih =>
    obtain ⟨k', v'⟩ := hd
    by_cases hk : k' = k
    · subst hk
      rw [getEntry, if_pos rfl] at h
      cases h
      exact List.mem_cons_self _ _
    · rw [getEntry, if_neg hk] at h
      exact List.mem_cons_of_mem _ (ih h)

theorem getEntry_of_mem_nodup {α β : Type} [DecidableEq α]
    (l : List (α × β)) (k : α) (v : β) (hnd : (l.map Prod.fst).Nodup)
    (hmem : (k, v) ∈ l) : getEntry l k = some v := by
  induction l with
  | nil => simp at hmem
  | cons hd tl ih =>
    obtain ⟨k', v'⟩ := hd
    simp only [List.map_cons, List.nodup_cons] at hnd
    rcases List.mem_cons.mp hmem with h | h
    · cases h
      rw [getEntry, if_pos rfl]
    · have hk : k' ≠ k := by
        intro h0
        subst h0
        exact hnd.1 (List.mem_map.mpr ⟨(k', v), h, rfl⟩)
      rw [getEntry, if_neg hk]
      exact ih hnd.2 h

theorem one_lt_length_of_two_mem {α : Type} {l : List α} {a b : α}
    (ha : a ∈ l) (hb : b ∈ l) (hne : a ≠ b) : 1 < l.length := by
  cases l with
  | nil => simp at ha
  | cons x tl =>
    cases tl with
    | nil =>
      simp at ha hb
      exact absurd (ha.trans hb.symm) hne
    | cons y tl2 => simp [Nat.lt_of_sub_eq_succ]

/-- The bucket a key accumulates while scanning a list of documents: the
processable documents whose recomputed key equals it, in scan order. -/
def bucketSpec (ctx : ScanCtx) (done : List TFile) (k : Option String) :
    List TFile :=
  done.filter (fun f => decide (ProcessedOK ctx f) && decide (fileKey ctx f = k))

/-- The group-map effect of one exact-scan step, as a function of the
processFile outcome: a successful result pushes the file under its key, a
failure leaves the map unchanged. -/
def pushIfSome (ctx : ScanCtx) (gm : List (Option String × List TFile))
    (f : TFile) (o : Option RawMeta) : List (Option String × List TFile) :=
  match o with
  | some meta => pushGroup gm (getHashKey ctx meta) f
  | none => gm

theorem scanExactStep_eq (ctx : ScanCtx) (r : DuplicateRegistry)
    (gm : List (Option String × List TFile)) (f : TFile) :
    scanExactStep ctx (r, gm) f =
      ((processFile ctx r f).2.1,
        pushIfSome ctx gm f (processFile ctx r f).1) := by
  unfold scanExactStep pushIfSome
  rcases h : processFile ctx r f with ⟨o, r', n⟩
  cases o <;> rfl

theorem scanExactFold_spec (ctx : ScanCtx) (L : List TFile) :
    ∀ (files done : List TFile) (r : DuplicateRegistry)
      (gm : List (Option String × List TFile)),
      (∀ f ∈ files, f ∈ L) →
      HonestFor ctx L r →
      (gm.map Prod.fst).Nodup →
      (∀ k, getEntry gm k =
        if bucketSpec ctx done k = [] then none
        else some (bucketSpec ctx done k)) →
      HonestFor ctx L (files.foldl (scanExactStep ctx) (r, gm)).1 ∧
      ((files.foldl (scanExactStep ctx) (r, gm)).2.map Prod.fst).Nodup ∧
      (∀ k, getEntry (files.foldl (scanExactStep ctx) (r, gm)).2 k =
        if bucketSpec ctx (done ++ files) k = [] then none
        else some (bucketSpec ctx (done ++ files) k)) := by
  intro files
  induction files with
  | nil =>
    intro done r gm _ hr hnd hchar
    simpa using ⟨hr, hnd, hchar⟩
  | cons f rest ih =>
    intro done r gm hsub hr hnd hchar
    have hfL : f ∈ L := hsub f (List.mem_cons_self _ _)
    have hspec := processFile_spec_honest ctx L r f hfL hr
    rw [List.append_cons]
    simp only [List.foldl_cons, scanExactStep_eq]
    cases ho : (processFile ctx r f).1 with
    | none =>
      have hnp : ¬ ProcessedOK ctx f := by
        intro hp
        have := hspec.2.1.mpr hp
        rw [ho] at this
        simp at this
      have hb : ∀ k, bucketSpec ctx (done ++ [f]) k = bucketSpec ctx done k := by
        intro k
        unfold bucketSpec
        rw [List.filter_append]
        simp [hnp]
      exact ih (done ++ [f]) (processFile ctx r f).2.1 gm
        (fun g hg => hsub g (List.mem_cons_of_mem _ hg)) hspec.1 hnd
        (fun k => by rw [hb k]; exact hchar k)
    | some meta =>
      have hp : ProcessedOK ctx f := hspec.2.1.mp (by simp [ho])
      have hkey : getHashKey ctx meta = fileKey ctx f := hspec.2.2 meta ho
      have hchar2 : ∀ k, getEntry (pushGroup gm (getHashKey ctx meta) f) k =
          if bucketSpec ctx (done ++ [f]) k = [] then none
          else some (bucketSpec ctx (done ++ [f]) k) := by
        intro k
        by_cases hk : k = getHashKey ctx meta
        · subst hk
          unfold pushGroup
          rw [getEntry_setEntry_self]
          have hbk : bucketSpec ctx (done ++ [f]) (getHashKey ctx meta) =
              bucketSpec ctx done (getHashKey ctx meta) ++ [f] := by
            unfold bucketSpec
            rw [List.filter_append]
            simp [hp, hkey]
          rw [hbk, hchar (getHashKey ctx meta)]
          by_cases hemp : bucketSpec ctx done (getHashKey ctx meta) = []
          · simp [hemp]
          · simp [hemp]
        · unfold pushGroup
          rw [getEntry_setEntry_ne _ _ _ _ hk]
          have hbk : bucketSpec ctx (done ++ [f]) k = bucketSpec ctx done k := by
            unfold bucketSpec
            rw [List.filter_append]
            have hkf : decide (fileKey ctx f = k) = false := by
              rw [← hkey]
              simp only [decide_eq_false_iff_not]
              intro h0
              exact hk h0.symm
            simp [hkf]
          rw [hbk]
          exact hchar k
      have hnd2 : ((pushGroup gm (getHashKey ctx meta) f).map Prod.fst).Nodup :=
        nodup_keys_setEntry _ _ _ hnd
      exact ih (done ++ [f]) (processFile ctx r f).2.1
        (pushGroup gm (getHashKey ctx meta) f)
        (fun g hg => hsub g (List.mem_cons_of_mem _ hg)) hspec.1 hnd2 hchar2

theorem scanExactDuplicates_eq (ctx : ScanCtx) (r : DuplicateRegistry)
    (files : List TFile) :
    scanExactDuplicates ctx r files =
      ((files.foldl (scanExactStep ctx) (r, [])).2.filterMap (fun e =>
          if 1 < e.2.length then
            some { hash := e.1, files := e.2,
                   matchType := some ctx.settings.duplicateType }
          else none),
        (files.foldl (scanExactStep ctx) (r, [])).1) := rfl

theorem fileKey_exact (ctx : ScanCtx) (f : TFile) (data : List Nat)
    (hmode : ctx.settings.duplicateType = .exact)
    (hread : ctx.readBinary f.path = some data) :
    fileKey ctx f = some (sha256hex (ctx.digest data)) := by
  unfold fileKey getHashKey computeFileMeta
  rw [hread]
  simp [hmode]

/-- C2: in exact mode, two distinct processable documents land in one and
the same returned DuplicateGroup exactly when the SHA-256 hex digests of
their current bytes coincide, and every returned group has at least two
members.  The registry hypothesis `HonestFor` states that any record the
cache would accept as a hit was produced from the document's current
bytes (it holds for the empty registry and is preserved by scanning);
without it a corrupted external snapshot could carry arbitrary hashes. -/
theorem scanExact_group_iff_hash_eq (ctx : ScanCtx) (r : DuplicateRegistry)
    (files : List TFile)
    (hmode : ctx.settings.duplicateType = .exact)
    (hr : HonestFor ctx files r) :
    (∀ g ∈ (scanExactDuplicates ctx r files).1, 2 ≤ g.files.length) ∧
    (∀ a b da db, a ∈ files → b ∈ files → a ≠ b →
      ProcessedOK ctx a → ProcessedOK ctx b →
      ctx.readBinary a.path = some da → ctx.readBinary b.path = some db →
      ((∃ g ∈ (scanExactDuplicates ctx r files).1,
          a ∈ g.files ∧ b ∈ g.files) ↔
        sha256hex (ctx.digest da) = sha256hex (ctx.digest db))) := by
  obtain ⟨hhon, hnd, hchar⟩ := scanExactFold_spec ctx files files [] r []
    (fun f hf => hf) hr (by simp)
    (by intro k; simp [bucketSpec, getEntry])
  simp only [List.nil_append] at hchar
  constructor
  · intro g hg
    rw [scanExactDuplicates_eq] at hg
    simp only [List.mem_filterMap] at hg
    obtain ⟨e, he, hsome⟩ := hg
    by_cases hlen : 1 < e.2.length
    · rw [if_pos hlen] at hsome
      cases hsome
      exact hlen
    · rw [if_neg hlen] at hsome
      exact absurd hsome (by simp)
  · intro a b da db ha hb hne hpa hpb hra hrb
    have hka := fileKey_exact ctx a da hmode hra
    have hkb := fileKey_exact ctx b db hmode hrb
    constructor
    · rintro ⟨g, hg, hga, hgb⟩
      rw [scanExactDuplicates_eq] at hg
      simp only [List.mem_filterMap] at hg
      obtain ⟨e, he, hsome⟩ := hg
      by_cases hlen : 1 < e.2.length
      · rw [if_pos hlen] at hsome
        cases hsome
        have hga2 : a ∈ e.2 := hga
        have hgb2 : b ∈ e.2 := hgb
        have hget : getEntry (files.foldl (scanExactStep ctx) (r, [])).2 e.1
            = some e.2 := getEntry_of_mem_nodup _ _ _ hnd he
        have hchar1 := hchar e.1
        rw [hget] at hchar1
        by_cases hemp : bucketSpec ctx files e.1 = []
        · rw [if_pos hemp] at hchar1
          exact absurd hchar1 (by simp)
        · rw [if_neg hemp] at hchar1
          have hbe : e.2 = bucketSpec ctx files e.1 := by
            injection hchar1
          rw [hbe] at hga2 hgb2
          unfold bucketSpec at hga2 hgb2
          rw [List.mem_filter] at hga2 hgb2
          have hka2 := hga2.2
          have hkb2 := hgb2.2
          simp only [Bool.and_eq_true, decide_eq_true_eq] at hka2 hkb2
          have : fileKey ctx a = fileKey ctx b := by
            rw [hka2.2, hkb2.2]
          rw [hka, hkb] at this
          exact Option.some.inj this
      · rw [if_neg hlen] at hsome
        exact absurd hsome (by simp)
    · intro hsha
      have hkeq : fileKey ctx a = fileKey ctx b := by
        rw [hka, hkb, hsha]
      have hma : a ∈ bucketSpec ctx files (fileKey ctx a) := by
        unfold bucketSpec
        rw [List.mem_filter]
        exact ⟨ha, by simp [hpa]⟩
      have hmb : b ∈ bucketSpec ctx files (fileKey ctx a) := by
        unfold bucketSpec
        rw [List.mem_filter]
        exact ⟨hb, by simp [hpb, hkeq.symm]⟩
      have hemp : ¬ bucketSpec ctx files (fileKey ctx a) = [] := by
        intro h0
        rw [h0] at hma
        simp at hma
      have hget := hchar (fileKey ctx a)
      rw [if_neg hemp] at hget
      have hmem := mem_of_getEntry_eq_some _ _ _ hget
      have hlen := one_lt_length_of_two_mem hma hmb hne
      refine ⟨{ hash := fileKey ctx a,
                files := bucketSpec ctx files (fileKey ctx a),
                matchType := some ctx.settings.duplicateType }, ?_, hma, hmb⟩
      rw [scanExactDuplicates_eq]
      simp only [List.mem_filterMap]
      exact ⟨(fileKey ctx a, bucketSpec ctx files (fileKey ctx a)), hmem,
        by rw [if_pos hlen]⟩

/-- Two distinct documents with identical bytes under the context used in
the C2 witness. -/
def fa2 : TFile := ⟨"a.md", 3, 5⟩

/-- Second document of the C2 witness vault. -/
def fb2 : TFile := ⟨"b.md", 3, 5⟩

/-- Concrete exact-mode context for the C2 witness: two documents with
the same bytes. -/
noncomputable def ctxC2 : ScanCtx :=
  { settings :=
      { duplicateType := .exact, similarityThreshold := 80,
        ignorePaths := [], sizeCapMB := 5, enableLLM := false },
    files := [fa2, fb2],
    readBinary := fun _ => some [7],
    readText := fun _ => none,
    digest := digest0,
    digest_len := fun b => by simp [digest0],
    normalizeText := id,
    judgeSim := fun _ _ => none,
    vectorSim := fun _ _ => 0,
    embed := fun _ => none }

/-- Witness instantiating `scanExact_group_iff_hash_eq` on a cold cache
and a two-file vault with byte-identical documents. -/
theorem scanExact_group_iff_hash_eq_witness :
    (∀ g ∈ (scanExactDuplicates ctxC2 (DuplicateRegistry.mk []) [fa2, fb2]).1,
        2 ≤ g.files.length) ∧
    ((∃ g ∈ (scanExactDuplicates ctxC2 (DuplicateRegistry.mk []) [fa2, fb2]).1,
        fa2 ∈ g.files ∧ fb2 ∈ g.files) ↔
      sha256hex (ctxC2.digest [7]) = sha256hex (ctxC2.digest [7])) := by
  have hhonest : HonestFor ctxC2 [fa2, fb2] (DuplicateRegistry.mk []) := by
    intro f hf rec hrec hhit
    unfold DuplicateRegistry.get at hrec
    by_cases hp : f.path = ""
    · rw [if_pos hp] at hrec
      exact Option.noConfusion hrec
    · rw [if_neg hp] at hrec
      exact Option.noConfusion hrec
  have h := scanExact_group_iff_hash_eq ctxC2 (DuplicateRegistry.mk [])
    [fa2, fb2] rfl hhonest
  exact ⟨h.1, h.2 fa2 fb2 [7] [7] (by decide) (by decide) (by decide)
    (by constructor <;> decide) (by constructor <;> decide) rfl rfl⟩

mutual

/-- Word-accumulating state of the JavaScript `split(/\s+/)` split used
by the lexical scorers: `acc` holds the reversed characters of the word
being read; a whitespace character emits the word and switches to
run-skipping.  The JavaScript quirks are preserved: leading whitespace
emits an initial empty token, trailing whitespace a final one, and the
empty string yields a single empty token. -/
def splitWSGo (cs : List Char) (acc : List Char) : List String :=
  match cs with
  | [] => [String.mk acc.reverse]
  | c :: rest =>
    if c.isWhitespace then String.mk acc.reverse :: splitWSSkip rest
    else splitWSGo rest (c :: acc)

/-- Whitespace-run-skipping state of the `split(/\s+/)` split. -/
def splitWSSkip (cs : List Char) : List String :=
  match cs with
  | [] => [""]
  | c :: rest =>
    if c.isWhitespace then splitWSSkip rest else splitWSGo rest [c]

end

/-- Tokenization used by the lexical scorers:
`text.toLowerCase().split(/\s+/)` (src/utils/textUtils.ts). -/
def jsTokens (s : String) : List String :=
  splitWSGo s.toLower.data []

/-- calculateJaccardSimilarity (src/utils/textUtils.ts lines 36-44):
`|words1 ∩ words2| / |words1 ∪ words2|` over the token sets, 0 for an
empty union. -/
noncomputable def calculateJaccardSimilarity (t1 t2 : String) : ℝ :=
  let words1 := (jsTokens t1).toFinset
  let words2 := (jsTokens t2).toFinset
  let inter := words1 ∩ words2
  let union := words1 ∪ words2
  if union.card = 0 then 0 else (inter.card : ℝ) / (union.card : ℝ)

/-- calculateCosineSimilarity (src/utils/textUtils.ts lines 52-87): the
dot product of the token-frequency vectors over the product of their
Euclidean norms, 0 when that product is 0.  The frequency maps are
modelled by `List.count` and their joint key set by the `Finset` of all
tokens. -/
noncomputable def calculateCosineSimilarity (t1 t2 : String) : ℝ :=
  let w1 := jsTokens t1
  let w2 := jsTokens t2
  let allWords := (w1 ++ w2).toFinset
  let dotProduct := Finset.sum allWords fun w => (w1.count w : ℝ) * (w2.count w : ℝ)
  let magnitude1 := Finset.sum allWords fun w => (w1.count w : ℝ) * (w1.count w : ℝ)
  let magnitude2 := Finset.sum allWords fun w => (w2.count w : ℝ) * (w2.count w : ℝ)
  let magnitude := Real.sqrt magnitude1 * Real.sqrt magnitude2
  if magnitude = 0 then 0 else dotProduct / magnitude

/-- levenshteinDistance (src/utils/textUtils.ts lines 112-135): the DP
matrix fills `matrix[j][i]` with the edit distance between the first `i`
characters of `str1` and the first `j` characters of `str2` using
`min(deletion, insertion, substitution)`; the embedding computes the same
recurrence by structural recursion on the two character lists. -/
def levenshteinDistance : List Char → List Char → Nat
  | [], ys => ys.length
  | xs, [] => xs.length
  | x :: xs, y :: ys =>
    min (min (levenshteinDistance xs (y :: ys) + 1)
        (levenshteinDistance (x :: xs) ys + 1))
      (levenshteinDistance xs ys + (if x = y then 0 else 1))
termination_by xs ys => xs.length + ys.length

/-- calculateSimpleSimilarity (src/utils/textUtils.ts lines 95-104):
normalized edit similarity `max(0, (1 - distance/maxLength) * 100)` on
the raw text, with the early returns for equal texts and empty texts. -/
noncomputable def calculateSimpleSimilarity (t1 t2 : String) : ℝ :=
  if t1 = t2 then 100
  else if t1.length = 0 ∧ t2.length = 0 then 100
  else if t1.length = 0 ∨ t2.length = 0 then 0
  else
    max 0 ((1 - (levenshteinDistance t1.data t2.data : ℝ)
      / (max t1.length t2.length : ℝ)) * 100)

/-- The memo key of calculateSimilarity (src/settings.ts line 297):
`[file1.path, file2.path].sort().join("|")` — the two paths in
lexicographic order joined with a bar. -/
def pairKey (p q : String) : String :=
  if p ≤ q then p ++ "|" ++ q else q ++ "|" ++ p

/-- The size-ratio quick filter condition of calculateSimilarity
(src/settings.ts line 311):
`Math.abs(content1.length - content2.length) / Math.max(content1.length,
content2.length) > 0.5`.  In the rational model `0/0 = 0 > 1/2` is false
exactly as `NaN > 0.5` is false in JavaScript, so the two-empty-strings
case agrees. -/
def sizeFilterGuard (c1 c2 : String) : Bool :=
  decide (|(c1.length : ℚ) - (c2.length : ℚ)|
    / (max (c1.length : ℚ) (c2.length : ℚ)) > 1 / 2)

theorem levenshteinDistance_symm (xs ys : List Char) :
    levenshteinDistance xs ys = levenshteinDistance ys xs := by
  induction xs generalizing ys with
  | nil => cases ys <;> simp [levenshteinDistance]
  | cons x xs ih =>
    induction ys with
    | nil => simp [levenshteinDistance]
    | cons y ys ih2 =>
      have hL : levenshteinDistance (x :: xs) (y :: ys) =
          min (min (levenshteinDistance xs (y :: ys) + 1)
              (levenshteinDistance (x :: xs) ys + 1))
            (levenshteinDistance xs ys + (if x = y then 0 else 1)) := by
        simp [levenshteinDistance]
      have hR : levenshteinDistance (y :: ys) (x :: xs) =
          min (min (levenshteinDistance ys (x :: xs) + 1)
              (levenshteinDistance (y :: ys) xs + 1))
            (levenshteinDistance ys xs + (if y = x then 0 else 1)) := by
        simp [levenshteinDistance]
      rw [hL, hR, ih (y :: ys), ih2, ih ys]
      have hind : (if x = y then 0 else 1) = (if y = x then 0 else 1) := by
        by_cases h : x = y
        · simp [h]
        · rw [if_neg h, if_neg (fun h2 : y = x => h h2.symm)]
      rw [hind, min_comm (levenshteinDistance ys (x :: xs) + 1)
        (levenshteinDistance (y :: ys) xs + 1)]

/-- C7: every repository-implemented similarity primitive is symmetric in
its two arguments: the Jaccard score, the cosine score, the normalized
edit similarity, the size-ratio filter condition, and the memo key (so a
memo lookup for a swapped pair hits the same entry).  The only remaining
method, the semantic score, is produced by the external LLM collaborator
outside this repository. -/
theorem similarity_methods_symmetric (a b p q : String) :
    calculateJaccardSimilarity a b = calculateJaccardSimilarity b a ∧
    calculateCosineSimilarity a b = calculateCosineSimilarity b a ∧
    calculateSimpleSimilarity a b = calculateSimpleSimilarity b a ∧
    sizeFilterGuard a b = sizeFilterGuard b a ∧
    pairKey p q = pairKey q p := by
  refine ⟨?_, ?_, ?_, ?_, ?_⟩
  · simp only [calculateJaccardSimilarity]
    rw [Finset.inter_comm ((jsTokens a).toFinset) ((jsTokens b).toFinset),
      Finset.union_comm ((jsTokens a).toFinset) ((jsTokens b).toFinset)]
  · simp only [calculateCosineSimilarity]
    have hset : (jsTokens a ++ jsTokens b).toFinset
        = (jsTokens b ++ jsTokens a).toFinset := by
      simp [List.toFinset_append, Finset.union_comm]
    rw [hset]
    have hdot : (Finset.sum (jsTokens b ++ jsTokens a).toFinset fun w =>
          ((jsTokens a).count w : ℝ) * ((jsTokens b).count w : ℝ))
        = Finset.sum (jsTokens b ++ jsTokens a).toFinset fun w =>
          ((jsTokens b).count w : ℝ) * ((jsTokens a).count w : ℝ) :=
      Finset.sum_congr rfl fun w _ => mul_comm _ _
    rw [hdot, mul_comm (Real.sqrt _) (Real.sqrt _)]
  · simp only [calculateSimpleSimilarity]
    by_cases h1 : a = b
    · rw [if_pos h1, if_pos h1.symm]
    · rw [if_neg h1, if_neg (fun h : b = a => h1 h.symm)]
      by_cases h2 : a.length = 0 ∧ b.length = 0
      · rw [if_pos h2, if_pos ⟨h2.2, h2.1⟩]
      · rw [if_neg h2,
          if_neg (fun h : b.length = 0 ∧ a.length = 0 => h2 ⟨h.2, h.1⟩)]
        by_cases h3 : a.length = 0 ∨ b.length = 0
        · rw [if_pos h3, if_pos h3.symm]
        · rw [if_neg h3,
            if_neg (fun h : b.length = 0 ∨ a.length = 0 => h3 h.symm)]
          rw [levenshteinDistance_symm, max_comm (a.length : ℝ) (b.length : ℝ)]
  · unfold sizeFilterGuard
    rw [abs_sub_comm, max_comm]
  · unfold pairKey
    rcases le_total p q with h | h
    · by_cases h2 : q ≤ p
      · have : p = q := le_antisymm h h2
        subst this
        rfl
      · rw [if_pos h, if_neg h2]
    · by_cases h2 : p ≤ q
      · have : p = q := le_antisymm h2 h
        subst this
        rfl
      · rw [if_neg h2, if_pos h]

/-- The method tags of a `SimilarityResult` (src/types/index.ts plus the
ad-hoc `"cached"` and `"size_filter"` tags cast in calculateSimilarity). -/
inductive SimMethod
  | jaccard
  | cosine
  | simple
  | llm
  | cached
  | size_filter
deriving DecidableEq, Repr

/-- A `SimilarityResult` (src/types/index.ts). -/
structure SimilarityResult where
  file1 : TFile
  file2 : TFile
  score : ℝ
  method : SimMethod

/-- Observable evaluation effects of one calculateSimilarity call: a
request to the semantic judge, a vector-similarity computation, or the
lexical ensemble. -/
inductive ScorerCall
  | judge
  | vector
  | lexical
deriving DecidableEq, Repr

/-- `this.semanticService` is initialized iff the scanner was constructed
in near mode with LLM enabled (src/settings.ts lines 52-56). -/
def hasSemantic (ctx : ScanCtx) : Bool :=
  decide (ctx.settings.duplicateType = .near) && ctx.settings.enableLLM

/-- One step of `scores.reduce((best, current) => current.score >
best.score ? current : best)`. -/
noncomputable def bestOf (best current : ℝ × SimMethod) : ℝ × SimMethod :=
  if current.1 > best.1 then current else best

/-- The lexical ensemble of calculateSimilarity (src/settings.ts lines
360-373): the highest of the Jaccard, cosine (both scaled to 0-100) and
simple scores, tagged with its method. -/
noncomputable def bestLexical (c1 c2 : String) : ℝ × SimMethod :=
  bestOf (bestOf (calculateJaccardSimilarity c1 c2 * 100, SimMethod.jaccard)
      (calculateCosineSimilarity c1 c2 * 100, SimMethod.cosine))
    (calculateSimpleSimilarity c1 c2, SimMethod.simple)

/-- The traditional-methods tail of calculateSimilarity: compute the
lexical ensemble, memoize the best score under the pair key, return it. -/
noncomputable def calcSimLexical (memo : List (String × ℝ)) (c1 c2 : String)
    (f1 f2 : TFile) (key : String) (calls : List ScorerCall) :
    SimilarityResult × List (String × ℝ) × List ScorerCall :=
  let best := bestLexical c1 c2
  (⟨f1, f2, best.1, best.2⟩, setEntry memo key best.1,
    calls ++ [ScorerCall.lexical])

/-- The embedding-vector branch of calculateSimilarity (src/settings.ts
lines 341-357): if both vectors were precomputed, score them, memoize,
and return when the threshold is met; otherwise fall through to the
lexical ensemble. -/
noncomputable def calcSimVector (ctx : ScanCtx)
    (vectors : List (String × List ℝ)) (memo : List (String × ℝ))
    (c1 c2 : String) (f1 f2 : TFile) (key : String)
    (calls : List ScorerCall) :
    SimilarityResult × List (String × ℝ) × List ScorerCall :=
  match getEntry vectors f1.path, getEntry vectors f2.path with
  | some v1, some v2 =>
    let vectorScore := ctx.vectorSim v1 v2
    let memo2 := setEntry memo key vectorScore
    if vectorScore ≥ (ctx.settings.similarityThreshold : ℝ) then
      (⟨f1, f2, vectorScore, SimMethod.llm⟩, memo2,
        calls ++ [ScorerCall.vector])
    else calcSimLexical memo2 c1 c2 f1 f2 key (calls ++ [ScorerCall.vector])
  | some _, none => calcSimLexical memo c1 c2 f1 f2 key calls
  | none, some _ => calcSimLexical memo c1 c2 f1 f2 key calls
  | none, none => calcSimLexical memo c1 c2 f1 f2 key calls

/-- DuplicateScanner.calculateSimilarity (src/settings.ts lines 289-384):
memo lookup, size-ratio quick filter, optional semantic judgment and
vector similarity, then the lexical ensemble.  Returns the result, the
pair memo after the call, and the list of evaluation calls made. -/
noncomputable def calculateSimilarity (ctx : ScanCtx)
    (vectors : List (String × List ℝ)) (memo : List (String × ℝ))
    (c1 c2 : String) (f1 f2 : TFile) :
    SimilarityResult × List (String × ℝ) × List ScorerCall :=
  let key := pairKey f1.path f2.path
  match getEntry memo key with
  | some cachedScore => (⟨f1, f2, cachedScore, SimMethod.cached⟩, memo, [])
  | none =>
    if sizeFilterGuard c1 c2 then
      (⟨f1, f2, 0, SimMethod.size_filter⟩, setEntry memo key 0, [])
    else if hasSemantic ctx then
      match ctx.judgeSim c1 c2 with
      | some llmScore =>
        if llmScore ≥ (ctx.settings.similarityThreshold : ℝ) then
          (⟨f1, f2, llmScore, SimMethod.llm⟩, setEntry memo key llmScore,
            [ScorerCall.judge])
        else
          calcSimVector ctx vectors (setEntry memo key llmScore) c1 c2 f1 f2
            key [ScorerCall.judge]
      | none => calcSimVector ctx vectors memo c1 c2 f1 f2 key
          [ScorerCall.judge]
    else calcSimLexical memo c1 c2 f1 f2 key []

/-- C4: for contents with no memoized score for the pair whose length
disparity exceeds the 0.5 ratio (one is more than double the length of
the other), calculateSimilarity returns score 0 with the size_filter
method, records 0 in the pair memo, and makes no call at all to the
semantic augmenter, the vector similarity, or the lexical ensemble. -/
theorem calculateSimilarity_size_filtered (ctx : ScanCtx)
    (vectors : List (String × List ℝ)) (memo : List (String × ℝ))
    (c1 c2 : String) (f1 f2 : TFile)
    (hmemo : getEntry memo (pairKey f1.path f2.path) = none)
    (hsize : |(c1.length : ℚ) - (c2.length : ℚ)|
      / (max (c1.length : ℚ) (c2.length : ℚ)) > 1 / 2) :
    calculateSimilarity ctx vectors memo c1 c2 f1 f2 =
      (⟨f1, f2, 0, SimMethod.size_filter⟩,
        setEntry memo (pairKey f1.path f2.path) 0, []) := by
  have hguard : sizeFilterGuard c1 c2 = true := decide_eq_true hsize
  simp only [calculateSimilarity, hmemo, hguard, if_true]

/-- Witness instantiating `calculateSimilarity_size_filtered` on an empty
memo with contents of lengths 4 and 1. -/
theorem calculateSimilarity_size_filtered_witness :
    calculateSimilarity ctxC1 [] [] "aaaa" "a" fa2 fb2 =
      (⟨fa2, fb2, 0, SimMethod.size_filter⟩,
        setEntry [] (pairKey fa2.path fb2.path) 0, []) :=
  calculateSimilarity_size_filtered ctxC1 [] [] "aaaa" "a" fa2 fb2 rfl
    (by
      have h1 : ("aaaa" : String).length = 4 := rfl
      have h2 : ("a" : String).length = 1 := rfl
      rw [h1, h2]
      norm_num)

/-- Absolute byte-size difference, the candidate ranking measure of
generateOptimalComparisonPairs: `Math.abs(a.stat.size - file1.stat.size)`. -/
def sizeDiff (a b : TFile) : Nat :=
  Int.natAbs ((a.size : Int) - (b.size : Int))

/-- The exhaustive double loop of generateOptimalComparisonPairs
(src/settings.ts lines 247-252): all pairs (files[i], files[j]) with
i < j, in loop order. -/
def allPairs : List TFile → List (TFile × TFile)
  | [] => []
  | f :: rest => rest.map (fun g => (f, g)) ++ allPairs rest

/-- The candidate comparator `(a, b) => sizeDiff(a) - sizeDiff(b)`: a
stable ascending sort by absolute size difference from `file1`. -/
def candidateLE (f : TFile) (a b : TFile) : Bool :=
  decide (sizeDiff a f ≤ sizeDiff b f)

/-- The sampling loop of generateOptimalComparisonPairs (src/settings.ts
lines 259-275): for each file while under the global cap, take the top
`maxPerFile` of the remaining files sorted by ascending size difference
and push its pairs, stopping the pushes at the cap (the push-then-break
loop appends exactly `maxComparisons - pairs.length` elements at most). -/
def samplePairs (maxComparisons maxPerFile : Nat) :
    List TFile → List (TFile × TFile) → List (TFile × TFile)
  | [], pairs => pairs
  | f :: rest, pairs =>
    if maxComparisons ≤ pairs.length then pairs
    else
      samplePairs maxComparisons maxPerFile rest
        (pairs ++
          ((((rest.mergeSort (candidateLE f)).take maxPerFile).map
            (fun g => (f, g))).take (maxComparisons - pairs.length)))

/-- DuplicateScanner.generateOptimalComparisonPairs (src/settings.ts
lines 241-278). -/
def generateOptimalComparisonPairs (files : List TFile)
    (maxComparisons : Nat) : List (TFile × TFile) :=
  let totalPossible := files.length * (files.length - 1) / 2
  if totalPossible ≤ maxComparisons then allPairs files
  else samplePairs maxComparisons (maxComparisons / files.length) files []

theorem allPairs_length (l : List TFile) :
    2 * (allPairs l).length = l.length * (l.length - 1) := by
  induction l with
  | nil => rfl
  | cons f rest ih =>
    simp only [allPairs, List.length_append, List.length_map,
      List.length_cons]
    have h2 : (rest.length + 1) * (rest.length + 1 - 1)
        = rest.length * (rest.length - 1) + 2 * rest.length := by
      cases rest.length with
      | zero => rfl
      | succ k =>
        simp only [Nat.succ_sub_one]
        ring
    omega

theorem allPairs_mem_iff (l : List TFile) (a b : TFile) :
    (a, b) ∈ allPairs l ↔ ∃ l1 l2, l = l1 ++ a :: l2 ∧ b ∈ l2 := by
  induction l with
  | nil =>
    simp only [allPairs, List.not_mem_nil, false_iff]
    rintro ⟨l1, l2, h, _⟩
    exact absurd h (by simp)
  | cons f rest ih =>
    constructor
    · intro h
      rcases List.mem_append.mp h with h | h
      · obtain ⟨g, hg, hfg⟩ := List.mem_map.mp h
        cases hfg
        exact ⟨[], rest, rfl, hg⟩
      · obtain ⟨l1, l2, hl, hb⟩ := ih.mp h
        exact ⟨f :: l1, l2, by rw [hl]; rfl, hb⟩
    · rintro ⟨l1, l2, hl, hb⟩
      cases l1 with
      | nil =>
        simp only [List.nil_append, List.cons.injEq] at hl
        rw [allPairs]
        refine List.mem_append.mpr (Or.inl ?_)
        rw [hl.1]
        exact List.mem_map.mpr ⟨b, hl.2 ▸ hb, rfl⟩
      | cons x l1' =>
        simp only [List.cons_append, List.cons.injEq] at hl
        rw [allPairs]
        exact List.mem_append.mpr (Or.inr (ih.mpr ⟨l1', l2, hl.2, hb⟩))

theorem samplePairs_length_le (m mpf : Nat) :
    ∀ (l : List TFile) (pairs : List (TFile × TFile)),
      pairs.length ≤ m → (samplePairs m mpf l pairs).length ≤ m := by
  intro l
  induction l with
  | nil => intro pairs h; exact h
  | cons f rest ih =>
    intro pairs h
    rw [samplePairs]
    by_cases hcap : m ≤ pairs.length
    · rw [if_pos hcap]; exact h
    · rw [if_neg hcap]
      refine ih _ ?_
      rw [List.length_append]
      have := List.length_take_le (m - pairs.length)
        ((((rest.mergeSort (candidateLE f)).take mpf).map (fun g => (f, g))))
      omega

theorem samplePairs_mem (m mpf : Nat) :
    ∀ (l pre : List TFile) (pairs : List (TFile × TFile)),
      (∀ p ∈ pairs, ∃ l1 l2, pre ++ l = l1 ++ p.1 :: l2 ∧ p.2 ∈ l2) →
      ∀ p ∈ samplePairs m mpf l pairs,
        ∃ l1 l2, pre ++ l = l1 ++ p.1 :: l2 ∧ p.2 ∈ l2 := by
  intro l
  induction l with
  | nil => intro pre pairs h; exact h
  | cons f rest ih =>
    intro pre pairs h p hp
    rw [samplePairs] at hp
    by_cases hcap : m ≤ pairs.length
    · rw [if_pos hcap] at hp
      exact h p hp
    · rw [if_neg hcap] at hp
      have hpre : (pre ++ [f]) ++ rest = pre ++ f :: rest := by simp
      have hnew : ∀ q ∈ pairs ++
          ((((rest.mergeSort (candidateLE f)).take mpf).map
            (fun g => (f, g))).take (m - pairs.length)),
          ∃ l1 l2, (pre ++ [f]) ++ rest = l1 ++ q.1 :: l2 ∧ q.2 ∈ l2 := by
        rw [hpre]
        intro q hq
        rcases List.mem_append.mp hq with hq | hq
        · exact h q hq
        · have hq2 := List.mem_of_mem_take hq
          obtain ⟨g, hg, hfg⟩ := List.mem_map.mp hq2
          cases hfg
          exact ⟨pre, rest, rfl,
            (List.mergeSort_perm rest (candidateLE f)).mem_iff.mp
              (List.mem_of_mem_take hg)⟩
      have hres := ih (pre ++ [f]) _ hnew p hp
      rw [hpre] at hres
      exact hres

theorem filter_fst_take_map_eq_nil (f f0 : TFile) (hne : f0 ≠ f)
    (xs : List TFile) (k : Nat) :
    ((xs.map (fun g => (f, g))).take k).filter
      (fun p => decide (p.1 = f0)) = [] := by
  rw [List.filter_eq_nil_iff]
  intro q hq
  obtain ⟨g, hg, hfg⟩ := List.mem_map.mp (List.mem_of_mem_take hq)
  cases hfg
  simp only [decide_eq_true_eq]
  exact fun h => hne h.symm

theorem samplePairs_filter_eq (m mpf : Nat) (f0 : TFile) :
    ∀ (l : List TFile) (pairs : List (TFile × TFile)), l.Nodup →
      (f0 ∉ l →
        (samplePairs m mpf l pairs).filter (fun p => decide (p.1 = f0))
          = pairs.filter (fun p => decide (p.1 = f0))) ∧
      (f0 ∈ l →
        ∃ l1 rest k, l = l1 ++ f0 :: rest ∧
          (samplePairs m mpf l pairs).filter (fun p => decide (p.1 = f0))
            = pairs.filter (fun p => decide (p.1 = f0)) ++
              ((((rest.mergeSort (candidateLE f0)).take mpf).map
                (fun g => (f0, g))).take k)) := by
  intro l
  induction l with
  | nil =>
    intro pairs _
    exact ⟨fun _ => rfl, fun h => absurd h (List.not_mem_nil f0)⟩
  | cons f rest ih =>
    intro pairs hnd
    rw [List.nodup_cons] at hnd
    constructor
    · intro hnot
      have hne : f0 ≠ f := fun h => hnot (h ▸ List.mem_cons_self f rest)
      have hnr : f0 ∉ rest := fun h => hnot (List.mem_cons_of_mem f h)
      rw [samplePairs]
      by_cases hcap : m ≤ pairs.length
      · rw [if_pos hcap]
      · rw [if_neg hcap, (ih _ hnd.2).1 hnr, List.filter_append,
          filter_fst_take_map_eq_nil f f0 hne, List.append_nil]
    · intro hin
      rw [samplePairs]
      by_cases hcap : m ≤ pairs.length
      · rw [if_pos hcap]
        obtain ⟨l1, rest2, hdec⟩ := List.append_of_mem hin
        exact ⟨l1, rest2, 0, hdec, by simp⟩
      · rw [if_neg hcap]
        by_cases hf : f0 = f
        · subst hf
          have hnr : f0 ∉ rest := hnd.1
          rw [(ih _ hnd.2).1 hnr, List.filter_append]
          refine ⟨[], rest, m - pairs.length, rfl, ?_⟩
          congr 1
          rw [List.filter_eq_self]
          intro q hq
          obtain ⟨g, hg, hfg⟩ := List.mem_map.mp (List.mem_of_mem_take hq)
          cases hfg
          simp
        · have hin2 : f0 ∈ rest := by
            rcases List.mem_cons.mp hin with h | h
            · exact absurd h hf
            · exact h
          obtain ⟨l1, rest2, k, hdec, heq⟩ :=
            (ih (pairs ++
              ((((rest.mergeSort (candidateLE f)).take mpf).map
                (fun g => (f, g))).take (m - pairs.length))) hnd.2).2 hin2
          refine ⟨f :: l1, rest2, k, by rw [hdec, List.cons_append], ?_⟩
          rw [heq, List.filter_append,
            filter_fst_take_map_eq_nil f f0 hf, List.append_nil]

theorem candidateLE_trans (f : TFile) : ∀ a b c : TFile,
    candidateLE f a b = true → candidateLE f b c = true →
    candidateLE f a c = true := by
  intro a b c hab hbc
  simp only [candidateLE, decide_eq_true_eq] at hab hbc ⊢
  exact le_trans hab hbc

theorem candidateLE_total (f : TFile) : ∀ a b : TFile,
    (candidateLE f a b || candidateLE f b a) = true := by
  intro a b
  simp only [candidateLE, Bool.or_eq_true, decide_eq_true_eq]
  exact Nat.le_total _ _

/-- C5: when the number of unordered pairs is within the comparison
budget, the generator emits exactly the list of all unordered pairs (in
loop order, characterized by the membership equivalence and the length
count); otherwise it emits at most `maxComparisons` pairs, every emitted
pair pairs a document with one occurring after it in the list, and each
document contributes at most `maxComparisons / documentCount` pairs as
first component, their partners listed in ascending order of absolute
size difference.  Documents are assumed pairwise distinct, as vault
paths are unique. -/
theorem generateOptimalComparisonPairs_spec (files : List TFile) (m : Nat)
    (hnd : files.Nodup) :
    (files.length * (files.length - 1) / 2 ≤ m →
      generateOptimalComparisonPairs files m = allPairs files ∧
      (allPairs files).length = files.length * (files.length - 1) / 2 ∧
      (∀ a b : TFile, (a, b) ∈ allPairs files ↔
        ∃ l1 l2, files = l1 ++ a :: l2 ∧ b ∈ l2)) ∧
    (m < files.length * (files.length - 1) / 2 →
      (generateOptimalComparisonPairs files m).length ≤ m ∧
      (∀ p ∈ generateOptimalComparisonPairs files m,
        ∃ l1 l2, files = l1 ++ p.1 :: l2 ∧ p.2 ∈ l2) ∧
      (∀ f : TFile,
        ((generateOptimalComparisonPairs files m).filter
            (fun p => decide (p.1 = f))).length ≤ m / files.length ∧
        ((((generateOptimalComparisonPairs files m).filter
            (fun p => decide (p.1 = f))).map Prod.snd).Sorted
          (fun a b => sizeDiff a f ≤ sizeDiff b f)))) := by
  constructor
  · intro h
    refine ⟨?_, ?_, allPairs_mem_iff files⟩
    · unfold generateOptimalComparisonPairs
      rw [if_pos h]
    · have := allPairs_length files
      omega
  · intro h
    have hn : ¬ (files.length * (files.length - 1) / 2 ≤ m) := not_le.mpr h
    have hgen : generateOptimalComparisonPairs files m
        = samplePairs m (m / files.length) files [] := by
      unfold generateOptimalComparisonPairs
      rw [if_neg hn]
    rw [hgen]
    refine ⟨samplePairs_length_le m _ files [] (by simp), ?_, ?_⟩
    · intro p hp
      have := samplePairs_mem m (m / files.length) files [] [] (by simp) p hp
      simpa using this
    · intro f
      by_cases hf : f ∈ files
      · obtain ⟨l1, rest2, k, hdec, heq⟩ :=
          (samplePairs_filter_eq m (m / files.length) f files [] hnd).2 hf
        rw [heq]
        constructor
        · simp only [List.filter_nil, List.nil_append, List.length_take,
            List.length_map]
          have h1 := List.length_take_le k
            (((rest2.mergeSort (candidateLE f)).take (m / files.length)).map
              (fun g => (f, g)))
          have h2 := List.length_take_le (m / files.length)
            (rest2.mergeSort (candidateLE f))
          simp only [List.length_take, List.length_map] at h1 h2
          omega
        · have hmap : ((([] : List (TFile × TFile)).filter
                (fun p => decide (p.1 = f)) ++
              ((((rest2.mergeSort (candidateLE f)).take
                (m / files.length)).map (fun g => (f, g))).take k)).map
              Prod.snd)
              = ((rest2.mergeSort (candidateLE f)).take
                  (m / files.length)).take k := by
            simp [List.map_take, List.map_map, Function.comp]
          rw [hmap]
          have hsorted := List.sorted_mergeSort (candidateLE_trans f)
            (candidateLE_total f) rest2
          have hsub : (((rest2.mergeSort (candidateLE f)).take
                (m / files.length)).take k).Sublist
              (rest2.mergeSort (candidateLE f)) :=
            (List.take_sublist _ _).trans (List.take_sublist _ _)
          have hpw := hsorted.sublist hsub
          exact hpw.imp (fun hab => by
            simpa [candidateLE, decide_eq_true_eq] using hab)
      · rw [(samplePairs_filter_eq m (m / files.length) f files [] hnd).1 hf]
        exact ⟨by simp, by simp [List.Sorted]⟩

/-- A three-file vault with pairwise distinct paths for the C5 witness. -/
def files5 : List TFile :=
  [⟨"a.md", 10, 0⟩, ⟨"b.md", 11, 0⟩, ⟨"c.md", 13, 0⟩]

/-- Witness instantiating `generateOptimalComparisonPairs_spec` on a
three-file list, once within budget (3 pairs allowed) and once over
budget (1 pair allowed). -/
theorem generateOptimalComparisonPairs_spec_witness :
    generateOptimalComparisonPairs files5 3 = allPairs files5 ∧
    (generateOptimalComparisonPairs files5 1).length ≤ 1 :=
  ⟨((generateOptimalComparisonPairs_spec files5 3 (by decide)).1
      (by decide)).1,
   ((generateOptimalComparisonPairs_spec files5 1 (by decide)).2
      (by decide)).1⟩

/-- `Set.prototype.add` semantics on the insertion-ordered member list:
adding an existing member is a no-op, a new member is appended. -/
def addFile (l : List TFile) (f : TFile) : List TFile :=
  if f ∈ l then l else l ++ [f]

/-- The mutable state of groupSimilarFiles: the `groups` map (group id to
member set) and the `fileToGroup` map (path to group id). -/
structure GroupsState where
  groups : List (String × List TFile)
  fileToGroup : List (String × String)

/-- The initial empty state of groupSimilarFiles. -/
def emptyGroupsState : GroupsState := ⟨[], []⟩

/-- One edge iteration of groupSimilarFiles (src/settings.ts lines
396-429).  New group ids are `"group_" + groups.size`, which can collide
with a live id once a merge has deleted a group; `Map.set` then
overwrites the live group.  `none` models the TypeError thrown when
`groups.get(...)!` is undefined (a stale `fileToGroup` mapping to a
deleted id). -/
def unionStep (st : GroupsState) (e : SimilarityResult) :
    Option GroupsState :=
  let p1 := e.file1.path
  let p2 := e.file2.path
  match getEntry st.fileToGroup p1, getEntry st.fileToGroup p2 with
  | none, none =>
    let groupId := "group_" ++ toString st.groups.length
    some ⟨setEntry st.groups groupId (addFile (addFile [] e.file1) e.file2),
      setEntry (setEntry st.fileToGroup p1 groupId) p2 groupId⟩
  | some g1, none =>
    match getEntry st.groups g1 with
    | none => none
    | some fs => some ⟨setEntry st.groups g1 (addFile fs e.file2),
        setEntry st.fileToGroup p2 g1⟩
  | none, some g2 =>
    match getEntry st.groups g2 with
    | none => none
    | some fs => some ⟨setEntry st.groups g2 (addFile fs e.file1),
        setEntry st.fileToGroup p1 g2⟩
  | some g1, some g2 =>
    if g1 = g2 then some st
    else
      match getEntry st.groups g1, getEntry st.groups g2 with
      | some fs1, some fs2 =>
        some ⟨delEntry (setEntry st.groups g1 (fs2.foldl addFile fs1)) g2,
          fs2.foldl (fun mp f => setEntry mp f.path g1) st.fileToGroup⟩
      | some _, none => none
      | none, some _ => none
      | none, none => none

/-- The average score of a final group (src/settings.ts lines 437-443):
the mean over the edges whose both endpoints lie in the group, or the
threshold when no such edge exists. -/
noncomputable def groupAvg (s : Settings)
    (similarities : List SimilarityResult) (fs : List TFile) : ℝ :=
  let groupSims := similarities.filter (fun sim =>
    decide (sim.file1 ∈ fs) && decide (sim.file2 ∈ fs))
  if 0 < groupSims.length then
    (groupSims.map SimilarityResult.score).sum / (groupSims.length : ℝ)
  else (s.similarityThreshold : ℝ)

/-- The emission loop of groupSimilarFiles (src/settings.ts lines
431-452): every group with more than one member becomes a DuplicateGroup
keyed `near_<index>`, where the index counts emitted groups. -/
noncomputable def emitGroups (s : Settings)
    (similarities : List SimilarityResult) :
    List (String × List TFile) → Nat → List DuplicateGroup
  | [], _ => []
  | (_, fs) :: rest, idx =>
    if 1 < fs.length then
      { hash := some ("near_" ++ toString idx), files := fs,
        matchType := some MatchType.near,
        similarityScore := some (groupAvg s similarities fs) }
        :: emitGroups s similarities rest (idx + 1)
    else emitGroups s similarities rest idx

/-- DuplicateScanner.groupSimilarFiles (src/settings.ts lines 391-455):
union-find-like grouping over the edges in order, then emission of the
multi-member groups.  `none` models the TypeError described at
`unionStep`. -/
noncomputable def groupSimilarFiles (s : Settings)
    (similarities : List SimilarityResult) : Option (List DuplicateGroup) :=
  (similarities.foldlM unionStep emptyGroupsState).map fun st =>
    emitGroups s similarities st.groups 0

/-- Near-mode settings used by concrete group-builder inputs. -/
def sNear : Settings :=
  { duplicateType := .near, similarityThreshold := 80, ignorePaths := [],
    sizeCapMB := 5, enableLLM := false }

/-- An above-threshold similarity edge between two files. -/
noncomputable def mkEdge (a b : TFile) : SimilarityResult :=
  { file1 := a, file2 := b, score := 90, method := SimMethod.jaccard }

/-- Files of the C6 failing input. -/
def fA : TFile := ⟨"A.md", 1, 0⟩

/-- Second file of the C6 failing input. -/
def fB : TFile := ⟨"B.md", 1, 0⟩

/-- Third file of the C6 failing input. -/
def fC : TFile := ⟨"C.md", 1, 0⟩

/-- Fourth file of the C6 failing input. -/
def fD : TFile := ⟨"D.md", 1, 0⟩

/-- Fifth file of the C6 failing input. -/
def fE : TFile := ⟨"E.md", 1, 0⟩

/-- Sixth file of the C6 failing input. -/
def fF : TFile := ⟨"F.md", 1, 0⟩

/-- Seventh file of the C6 failing input. -/
def fG : TFile := ⟨"G.md", 1, 0⟩

/-- Eighth file of the C6 failing input. -/
def fH : TFile := ⟨"H.md", 1, 0⟩

/-- Ninth file of the C6 failing input. -/
def fZ : TFile := ⟨"Z.md", 1, 0⟩

/-- The C6 failing edge sequence: edges E-F and F-Z are both present. -/
noncomputable def edges6 : List SimilarityResult :=
  [mkEdge fA fB, mkEdge fC fD, mkEdge fE fF, mkEdge fA fC, mkEdge fG fH,
    mkEdge fF fZ]

/-- C6, evaluation at the failing input: the edge list contains both E-F
and F-Z, yet the returned groups are {A,B,C,D} and {G,H,Z}; E and F are
in no returned group, so E, F, Z do not share a group.  Mechanism: after
the A-C merge deletes `group_1`, `groups.size` is 2, so the new pair
(G,H) is stored under the id `group_2`, overwriting the live group
{E,F}; the later edge F-Z then follows the stale `fileToGroup` mapping
of F into the overwritten group and appends Z there. -/
theorem groupSimilarFiles_id_collision :
    ((groupSimilarFiles sNear edges6).map
        (fun gs => gs.map DuplicateGroup.files))
      = some [[fA, fB, fC, fD], [fG, fH, fZ]] ∧
    ((groupSimilarFiles sNear edges6).map
        (fun gs => decide (∃ g ∈ gs,
          fE ∈ g.files ∧ fF ∈ g.files ∧ fZ ∈ g.files)))
      = some false := by
  constructor
  · rfl
  · rfl

theorem mem_addFile (l : List TFile) (f x : TFile) :
    x ∈ addFile l f ↔ x ∈ l ∨ x = f := by
  unfold addFile
  by_cases h : f ∈ l
  · rw [if_pos h]
    constructor
    · exact Or.inl
    · rintro (hx | rfl)
      · exact hx
      · exact h
  · rw [if_neg h]
    simp

theorem mem_foldl_addFile (l2 : List TFile) :
    ∀ (l1 : List TFile) (x : TFile),
      x ∈ l2.foldl addFile l1 ↔ x ∈ l1 ∨ x ∈ l2 := by
  induction l2 with
  | nil => intro l1 x; simp
  | cons f rest ih =>
    intro l1 x
    rw [List.foldl_cons, ih, mem_addFile]
    constructor
    · rintro ((h | h) | h)
      · exact Or.inl h
      · exact Or.inr (h ▸ List.mem_cons_self f rest)
      · exact Or.inr (List.mem_cons_of_mem f h)
    · rintro (h | h)
      · exact Or.inl (Or.inl h)
      · rcases List.mem_cons.mp h with h | h
        · exact Or.inl (Or.inr h)
        · exact Or.inr h

theorem mem_setEntry_elim {α β : Type} [DecidableEq α]
    {l : List (α × β)} {k0 : α} {v0 : β} {k : α} {v : β}
    (h : (k, v) ∈ setEntry l k0 v0) : (k = k0 ∧ v = v0) ∨ (k, v) ∈ l := by
  induction l with
  | nil =>
    simp [setEntry] at h
    exact Or.inl h
  | cons hd tl ih =>
    obtain ⟨k', v'⟩ := hd
    by_cases hk : k' = k0
    · subst hk
      rw [setEntry, if_pos rfl] at h
      rcases List.mem_cons.mp h with h | h
      · cases h
        exact Or.inl ⟨rfl, rfl⟩
      · exact Or.inr (List.mem_cons_of_mem _ h)
    · rw [setEntry, if_neg hk] at h
      rcases List.mem_cons.mp h with h | h
      · cases h
        exact Or.inr (List.mem_cons_self _ _)
      · rcases ih h with h | h
        · exact Or.inl h
        · exact Or.inr (List.mem_cons_of_mem _ h)

theorem mem_delEntry_elim {α β : Type} [DecidableEq α]
    {l : List (α × β)} {k0 : α} {k : α} {v : β}
    (hnd : (l.map Prod.fst).Nodup) (h : (k, v) ∈ delEntry l k0) :
    (k, v) ∈ l ∧ k ≠ k0 := by
  induction l with
  | nil => simp [delEntry] at h
  | cons hd tl ih =>
    obtain ⟨k', v'⟩ := hd
    simp only [List.map_cons, List.nodup_cons] at hnd
    by_cases hk : k' = k0
    · subst hk
      rw [delEntry, if_pos rfl] at h
      refine ⟨List.mem_cons_of_mem _ h, ?_⟩
      intro h0
      subst h0
      exact hnd.1 (List.mem_map.mpr ⟨(k, v), h, rfl⟩)
    · rw [delEntry, if_neg hk] at h
      rcases List.mem_cons.mp h with h | h
      · cases h
        exact ⟨List.mem_cons_self _ _, hk⟩
      · have := ih hnd.2 h
        exact ⟨List.mem_cons_of_mem _ this.1, this.2⟩

theorem keys_delEntry_sublist {α β : Type} [DecidableEq α]
    (l : List (α × β)) (k0 : α) :
    ((delEntry l k0).map Prod.fst).Sublist (l.map Prod.fst) := by
  induction l with
  | nil => simp [delEntry]
  | cons hd tl ih =>
    obtain ⟨k', v'⟩ := hd
    by_cases hk : k' = k0
    · rw [delEntry, if_pos hk]
      exact (List.sublist_cons_self _ _)
    · rw [delEntry, if_neg hk]
      simpa using ih.cons₂ k'

theorem getEntry_foldl_setEntry (fs2 : List TFile) (g1 : String) :
    ∀ (mp : List (String × String)) (q : String),
      getEntry (fs2.foldl (fun mp f => setEntry mp f.path g1) mp) q
        = if q ∈ fs2.map TFile.path then some g1 else getEntry mp q := by
  induction fs2 with
  | nil => intro mp q; simp
  | cons f rest ih =>
    intro mp q
    rw [List.foldl_cons, ih]
    by_cases hr : q ∈ rest.map TFile.path
    · rw [if_pos hr, if_pos (by simp [hr])]
    · rw [if_neg hr]
      by_cases hf : q = f.path
      · subst hf
        rw [getEntry_setEntry_self, if_pos (by simp)]
      · rw [getEntry_setEntry_ne _ _ _ _ hf, if_neg (by
          simp only [List.map_cons, List.mem_cons]
          rintro (h | h)
          · exact hf h
          · exact hr h)]

/-- The invariant of the union-find state: group ids are unique and every
member of a live group is mapped to that group's id. -/
def GroupsInv (st : GroupsState) : Prop :=
  (st.groups.map Prod.fst).Nodup ∧
  ∀ gid fs, (gid, fs) ∈ st.groups → ∀ f ∈ fs,
    getEntry st.fileToGroup f.path = some gid

theorem unionStep_inv (st : GroupsState) (e : SimilarityResult)
    (st' : GroupsState) (hinv : GroupsInv st)
    (hstep : unionStep st e = some st') : GroupsInv st' := by
  obtain ⟨hnd, hmap⟩ := hinv
  simp only [unionStep] at hstep
  cases h1 : getEntry st.fileToGroup e.file1.path with
  | none =>
    cases h2 : getEntry st.fileToGroup e.file2.path with
    | none =>
      rw [h1, h2] at hstep
      simp only [] at hstep
      cases hstep
      refine ⟨nodup_keys_setEntry _ _ _ hnd, ?_⟩
      intro gid fs hmem f hf
      rcases mem_setEntry_elim hmem with ⟨hg, hfs⟩ | hmem2
      · subst hg
        subst hfs
        rcases (mem_addFile _ _ _).mp hf with hf1 | hf2
        · rcases (mem_addFile _ _ _).mp hf1 with hf0 | hf1
          · simp at hf0
          · subst hf1
            by_cases hpp : e.file1.path = e.file2.path
            · rw [hpp, getEntry_setEntry_self]
            · rw [getEntry_setEntry_ne _ _ _ _ hpp, getEntry_setEntry_self]
        · subst hf2
          rw [getEntry_setEntry_self]
      · have hold := hmap gid fs hmem2 f hf
        have hne1 : f.path ≠ e.file1.path := by
          intro h0
          rw [h0, h1] at hold
          exact Option.noConfusion hold
        have hne2 : f.path ≠ e.file2.path := by
          intro h0
          rw [h0, h2] at hold
          exact Option.noConfusion hold
        rw [getEntry_setEntry_ne _ _ _ _ hne2,
          getEntry_setEntry_ne _ _ _ _ hne1]
        exact hold
    | some g2 =>
      rw [h1, h2] at hstep
      simp only [] at hstep
      cases hg2 : getEntry st.groups g2 with
      | none => rw [hg2] at hstep; exact Option.noConfusion hstep
      | some fs2 =>
        rw [hg2] at hstep
        cases hstep
        refine ⟨nodup_keys_setEntry _ _ _ hnd, ?_⟩
        intro gid fs hmem f hf
        rcases mem_setEntry_elim hmem with ⟨hg, hfs⟩ | hmem2
        · subst hg
          subst hfs
          rcases (mem_addFile _ _ _).mp hf with hf2 | hf1
          · have hold := hmap gid fs2 (mem_of_getEntry_eq_some _ _ _ hg2)
              f hf2
            by_cases hpp : f.path = e.file1.path
            · rw [hpp, getEntry_setEntry_self]
            · rw [getEntry_setEntry_ne _ _ _ _ hpp]
              exact hold
          · subst hf1
            rw [getEntry_setEntry_self]
        · have hold := hmap gid fs hmem2 f hf
          have hne1 : f.path ≠ e.file1.path := by
            intro h0
            rw [h0, h1] at hold
            exact Option.noConfusion hold
          rw [getEntry_setEntry_ne _ _ _ _ hne1]
          exact hold
  | some g1 =>
    cases h2 : getEntry st.fileToGroup e.file2.path with
    | none =>
      rw [h1, h2] at hstep
      simp only [] at hstep
      cases hg1 : getEntry st.groups g1 with
      | none => rw [hg1] at hstep; exact Option.noConfusion hstep
      | some fs1 =>
        rw [hg1] at hstep
        cases hstep
        refine ⟨nodup_keys_setEntry _ _ _ hnd, ?_⟩
        intro gid fs hmem f hf
        rcases mem_setEntry_elim hmem with ⟨hg, hfs⟩ | hmem2
        · subst hg
          subst hfs
          rcases (mem_addFile _ _ _).mp hf with hf1 | hf2
          · have hold := hmap gid fs1 (mem_of_getEntry_eq_some _ _ _ hg1)
              f hf1
            by_cases hpp : f.path = e.file2.path
            · rw [hpp, getEntry_setEntry_self]
            · rw [getEntry_setEntry_ne _ _ _ _ hpp]
              exact hold
          · subst hf2
            rw [getEntry_setEntry_self]
        · have hold := hmap gid fs hmem2 f hf
          have hne2 : f.path ≠ e.file2.path := by
            intro h0
            rw [h0, h2] at hold
            exact Option.noConfusion hold
          rw [getEntry_setEntry_ne _ _ _ _ hne2]
          exact hold
    | some g2 =>
      rw [h1, h2] at hstep
      simp only [] at hstep
      by_cases hgg : g1 = g2
      · rw [if_pos hgg] at hstep
        cases hstep
        exact ⟨hnd, hmap⟩
      · rw [if_neg hgg] at hstep
        cases hg1 : getEntry st.groups g1 with
        | none =>
          rw [hg1] at hstep
          cases hg2 : getEntry st.groups g2 with
          | none => rw [hg2] at hstep; exact Option.noConfusion hstep
          | some fs2 => rw [hg2] at hstep; exact Option.noConfusion hstep
        | some fs1 =>
          rw [hg1] at hstep
          cases hg2 : getEntry st.groups g2 with
          | none => rw [hg2] at hstep; exact Option.noConfusion hstep
          | some fs2 =>
            rw [hg2] at hstep
            cases hstep
            have hndset : ((setEntry st.groups g1
                (fs2.foldl addFile fs1)).map Prod.fst).Nodup :=
              nodup_keys_setEntry _ _ _ hnd
            refine ⟨(keys_delEntry_sublist _ _).nodup hndset, ?_⟩
            intro gid fs hmem f hf
            obtain ⟨hmem1, hgne⟩ := mem_delEntry_elim hndset hmem
            rw [getEntry_foldl_setEntry]
            rcases mem_setEntry_elim hmem1 with ⟨hg, hfs⟩ | hmem2
            · subst hg
              subst hfs
              rcases (mem_foldl_addFile _ _ _).mp hf with hf1 | hf2
              · by_cases hin2 : f.path ∈ fs2.map TFile.path
                · rw [if_pos hin2]
                · rw [if_neg hin2]
                  exact hmap gid fs1 (mem_of_getEntry_eq_some _ _ _ hg1)
                    f hf1
              · rw [if_pos (List.mem_map.mpr ⟨f, hf2, rfl⟩)]
            · have hold := hmap gid fs hmem2 f hf
              have hnotin : f.path ∉ fs2.map TFile.path := by
                intro hin
                obtain ⟨f2, hf2, hpeq⟩ := List.mem_map.mp hin
                have h2m := hmap g2 fs2 (mem_of_getEntry_eq_some _ _ _ hg2)
                  f2 hf2
                rw [hpeq] at h2m
                rw [hold] at h2m
                exact hgne (Option.some.inj h2m)
              rw [if_neg hnotin]
              exact hold

theorem foldlM_unionStep_inv :
    ∀ (edges : List SimilarityResult) (st st' : GroupsState),
      GroupsInv st → edges.foldlM unionStep st = some st' →
      GroupsInv st' := by
  intro edges
  induction edges with
  | nil =>
    intro st st' hinv hfold
    cases hfold
    exact hinv
  | cons e rest ih =>
    intro st st' hinv hfold
    rw [List.foldlM_cons] at hfold
    cases hstep : unionStep st e with
    | none => rw [hstep] at hfold; exact Option.noConfusion hfold
    | some st1 =>
      rw [hstep] at hfold
      exact ih st1 st' (unionStep_inv st e st1 hinv hstep) hfold

theorem entries_pairwise_disjoint (mp : List (String × String)) :
    ∀ (groups : List (String × List TFile)),
      (groups.map Prod.fst).Nodup →
      (∀ gid fs, (gid, fs) ∈ groups → ∀ f ∈ fs,
        getEntry mp f.path = some gid) →
      groups.Pairwise (fun e1 e2 => ∀ f, f ∈ e1.2 → f ∉ e2.2) := by
  intro groups
  induction groups with
  | nil => intro _ _; constructor
  | cons hd tl ih =>
    intro hnd hmap
    obtain ⟨gid, fs⟩ := hd
    simp only [List.map_cons, List.nodup_cons] at hnd
    rw [List.pairwise_cons]
    constructor
    · intro e he f hf hf2
      have h1 := hmap gid fs (List.mem_cons_self _ _) f hf
      have h2 := hmap e.1 e.2 (List.mem_cons_of_mem _ (by simpa using he))
        f hf2
      rw [h1] at h2
      have : gid = e.1 := Option.some.inj h2
      exact hnd.1 (this ▸ List.mem_map.mpr ⟨e, he, rfl⟩)
    · exact ih hnd.2 (fun gid' fs' hm => hmap gid' fs'
        (List.mem_cons_of_mem _ hm))

theorem emitGroups_files_origin (s : Settings)
    (sims : List SimilarityResult) :
    ∀ (l : List (String × List TFile)) (idx : Nat) (g : DuplicateGroup),
      g ∈ emitGroups s sims l idx → ∃ e ∈ l, g.files = e.2 := by
  intro l
  induction l with
  | nil => intro idx g hg; simp [emitGroups] at hg
  | cons hd tl ih =>
    intro idx g hg
    obtain ⟨gid, fs⟩ := hd
    rw [emitGroups] at hg
    by_cases hlen : 1 < fs.length
    · rw [if_pos hlen] at hg
      rcases List.mem_cons.mp hg with hg | hg
      · subst hg
        exact ⟨(gid, fs), List.mem_cons_self _ _, rfl⟩
      · obtain ⟨e, he, hfe⟩ := ih (idx + 1) g hg
        exact ⟨e, List.mem_cons_of_mem _ he, hfe⟩
    · rw [if_neg hlen] at hg
      obtain ⟨e, he, hfe⟩ := ih idx g hg
      exact ⟨e, List.mem_cons_of_mem _ he, hfe⟩

theorem emitGroups_pairwise (s : Settings) (sims : List SimilarityResult) :
    ∀ (l : List (String × List TFile)) (idx : Nat),
      l.Pairwise (fun e1 e2 => ∀ f, f ∈ e1.2 → f ∉ e2.2) →
      (emitGroups s sims l idx).Pairwise
        (fun g1 g2 => ∀ f, f ∈ g1.files → f ∉ g2.files) := by
  intro l
  induction l with
  | nil => intro idx _; constructor
  | cons hd tl ih =>
    intro idx hpw
    obtain ⟨gid, fs⟩ := hd
    rw [List.pairwise_cons] at hpw
    rw [emitGroups]
    by_cases hlen : 1 < fs.length
    · rw [if_pos hlen, List.pairwise_cons]
      constructor
      · intro g2 hg2 f hf
        obtain ⟨e, he, hfe⟩ := emitGroups_files_origin s sims tl (idx + 1)
          g2 hg2
        rw [hfe]
        exact hpw.1 e he f hf
      · exact ih (idx + 1) hpw.2
    · rw [if_neg hlen]
      exact ih idx hpw.2

/-- C9: whenever groupSimilarFiles returns (it can only throw via the
stale-id TypeError modelled by `none`), the returned DuplicateGroups are
pairwise disjoint: no file is a member of two distinct returned groups. -/
theorem groupSimilarFiles_disjoint (s : Settings)
    (similarities : List SimilarityResult) (gs : List DuplicateGroup)
    (h : groupSimilarFiles s similarities = some gs) :
    gs.Pairwise (fun g1 g2 => ∀ f, f ∈ g1.files → f ∉ g2.files) := by
  unfold groupSimilarFiles at h
  cases hfold : similarities.foldlM unionStep emptyGroupsState with
  | none => rw [hfold] at h; exact Option.noConfusion h
  | some st =>
    rw [hfold] at h
    have hgs : gs = emitGroups s similarities st.groups 0 :=
      (Option.some.inj h).symm
    have hinv : GroupsInv st := foldlM_unionStep_inv similarities
      emptyGroupsState st ⟨by simp [emptyGroupsState], by
        intro gid fs hm
        simp [emptyGroupsState] at hm⟩ hfold
    rw [hgs]
    exact emitGroups_pairwise s similarities st.groups 0
      (entries_pairwise_disjoint st.fileToGroup st.groups hinv.1 hinv.2)

/-- Witness instantiating `groupSimilarFiles_disjoint` on a self-edge
input, whose singleton group is filtered out so the returned list is
empty. -/
theorem groupSimilarFiles_disjoint_witness :
    groupSimilarFiles sNear [mkEdge fA fA] = some [] ∧
    (([] : List DuplicateGroup)).Pairwise
      (fun g1 g2 => ∀ f, f ∈ g1.files → f ∉ g2.files) :=
  ⟨rfl, groupSimilarFiles_disjoint sNear [mkEdge fA fA] [] rfl⟩

/-- shouldIgnoreFile (src/utils/fileUtils.ts): path-prefix match against
the ignore list, or size above the cap in megabytes. -/
def shouldIgnoreFile (f : TFile) (ignorePaths : List String)
    (sizeCapMB : ℚ) : Bool :=
  ignorePaths.any (fun p => f.path.startsWith p) ||
    decide ((f.size : ℚ) > sizeCapMB * 1024 * 1024)

/-- The mutable scanner fields a scan reads and writes: the persistent
metadata registry and the in-session pair-score memo
(`similarityCache`). -/
structure ScanState where
  registry : DuplicateRegistry
  memo : List (String × ℝ)

/-- One file of the first pass of scanNearDuplicates (src/settings.ts
lines 163-191): read the text content; while the semantic service is
present and fewer than 100 files have been processed, also request an
embedding vector (an embedding failure is swallowed); a read failure
skips the file entirely.  State: (contents map, vectors map, processed
count). -/
noncomputable def readPassStep (ctx : ScanCtx)
    (st : List (String × String) × List (String × List ℝ) × Nat)
    (f : TFile) : List (String × String) × List (String × List ℝ) × Nat :=
  match ctx.readText f.path with
  | none => st
  | some content =>
    let contents := setEntry st.1 f.path content
    let vectors :=
      if hasSemantic ctx && decide (st.2.2 < 100) then
        match ctx.embed content with
        | some v => setEntry st.2.1 f.path v
        | none => st.2.1
      else st.2.1
    (contents, vectors, st.2.2 + 1)

/-- One pair of the second pass of scanNearDuplicates (src/settings.ts
lines 203-227): missing or empty contents (`!content1 || !content2`)
skip the pair; otherwise the pair is scored and kept iff the score meets
the threshold.  State: (similarities so far, pair memo). -/
noncomputable def comparePairsStep (ctx : ScanCtx)
    (contents : List (String × String)) (vectors : List (String × List ℝ))
    (st : List SimilarityResult × List (String × ℝ)) (p : TFile × TFile) :
    List SimilarityResult × List (String × ℝ) :=
  match getEntry contents p.1.path, getEntry contents p.2.path with
  | some c1, some c2 =>
    if c1 = "" ∨ c2 = "" then st
    else
      let r := calculateSimilarity ctx vectors st.2 c1 c2 p.1 p.2
      if (ctx.settings.similarityThreshold : ℝ) ≤ r.1.score then
        (st.1 ++ [r.1], r.2.1)
      else (st.1, r.2.1)
  | some _, none => st
  | none, some _ => st
  | none, none => st

/-- DuplicateScanner.scanNearDuplicates (src/settings.ts lines 144-233):
limit to the 500 largest files, read contents and bounded embeddings,
score the generated candidate pairs keeping those at or above the
threshold, and group them.  The group list is `none` when
groupSimilarFiles throws.  Only the pair memo of the scanner state is
updated. -/
noncomputable def scanNearDuplicates (ctx : ScanCtx) (stt : ScanState)
    (files : List TFile) : Option (List DuplicateGroup) × ScanState :=
  let limitedFiles := files.take (min files.length 500)
  let rp := limitedFiles.foldl (readPassStep ctx) ([], [], 0)
  let maxComparisons :=
    min (limitedFiles.length * (limitedFiles.length - 1) / 2) 10000
  let comparisonPairs :=
    generateOptimalComparisonPairs limitedFiles maxComparisons
  let cp := comparisonPairs.foldl (comparePairsStep ctx rp.1 rp.2.1)
    ([], stt.memo)
  (groupSimilarFiles ctx.settings cp.1, { stt with memo := cp.2 })

/-- DuplicateScanner.scan (src/settings.ts lines 62-83): filter ignored
files, sort by size descending (stable), and dispatch on the configured
mode.  The group list is `none` when the near-mode grouping throws (the
method then raises "Failed to scan for duplicates"). -/
noncomputable def scan (ctx : ScanCtx) (stt : ScanState) :
    Option (List DuplicateGroup) × ScanState :=
  let validFiles := ctx.files.filter (fun f =>
    !(shouldIgnoreFile f ctx.settings.ignorePaths ctx.settings.sizeCapMB))
  let sorted := validFiles.mergeSort (fun a b => decide (b.size ≤ a.size))
  if ctx.settings.duplicateType = .near then
    scanNearDuplicates ctx stt sorted
  else
    ((scanExactDuplicates ctx stt.registry sorted).1,
      { stt with registry := (scanExactDuplicates ctx stt.registry sorted).2 })

/-- C10: a near-mode scan never mutates the metadata registry: the
registry component of the scanner state after the scan is the registry
it started with; only the in-session pair-score memo is written. -/
theorem scanNear_preserves_registry (ctx : ScanCtx) (stt : ScanState)
    (hmode : ctx.settings.duplicateType = .near) :
    (scan ctx stt).2.registry = stt.registry := by
  simp only [scan, scanNearDuplicates, hmode, if_true]

/-- A near-mode context over the nine files of the C6 input, for the C10
witness. -/
noncomputable def ctxC10 : ScanCtx :=
  { settings := sNear,
    files := [fA, fB, fC, fD, fE, fF, fG, fH, fZ],
    readBinary := fun _ => some [0],
    readText := fun p => some p,
    digest := digest0,
    digest_len := fun b => by simp [digest0],
    normalizeText := id,
    judgeSim := fun _ _ => none,
    vectorSim := fun _ _ => 0,
    embed := fun _ => none }

/-- Witness instantiating `scanNear_preserves_registry` on a concrete
near-mode context and a nonempty registry. -/
theorem scanNear_preserves_registry_witness :
    (scan ctxC10 ⟨DuplicateRegistry.mk [("x.md", hitMeta)], []⟩).2.registry
      = DuplicateRegistry.mk [("x.md", hitMeta)] :=
  scanNear_preserves_registry ctxC10
    ⟨DuplicateRegistry.mk [("x.md", hitMeta)], []⟩ rfl

theorem computeFileMeta_fields (ctx : ScanCtx) (f : TFile)
    (data : List Nat) :
    (computeFileMeta ctx f data).mtime = some (f.mtime : Int) ∧
    (computeFileMeta ctx f data).size = some (f.size : Int) ∧
    (computeFileMeta ctx f data).matchType
      = some ctx.settings.duplicateType := by
  unfold computeFileMeta
  by_cases h : ctx.settings.duplicateType = .canonical
  · simp [h]
  · simp [h]

theorem processFile_get_ne (ctx : ScanCtx) (r : DuplicateRegistry)
    (f : TFile) (q : String) (hq : q ≠ f.path) :
    (processFile ctx r f).2.1.get q = r.get q := by
  by_cases hpath : f.path = ""
  · rw [processFile_eq_throw ctx r f hpath]
  · by_cases hhit : ∃ cached, r.get f.path = some cached ∧
        CacheHit ctx f cached
    · obtain ⟨c, hg, hc⟩ := hhit
      rw [processFile_eq_hit ctx r f c hg hc]
    · have hmiss : ∀ cached, r.get f.path = some cached →
          ¬ CacheHit ctx f cached := fun c hg hc => hhit ⟨c, hg, hc⟩
      rw [processFile_eq_compute ctx r f hpath hmiss]
      cases hread : ctx.readBinary f.path with
      | none => rw [processFileCompute_eq_none ctx r f hread]
      | some data =>
        rw [processFileCompute_eq_some ctx r f data hread]
        exact registry_get_set_ne r f.path q _ hq

/-- Replaying processFile against any registry that agrees at the file's
path with the post-state of a previous run is a no-op on the registry and
produces a record with the same grouping key. -/
theorem processFile_stable (ctx : ScanCtx) (r r' : DuplicateRegistry)
    (f : TFile)
    (hsame : r'.get f.path = (processFile ctx r f).2.1.get f.path) :
    (processFile ctx r' f).2.1 = r' ∧
    Option.map (getHashKey ctx) (processFile ctx r' f).1
      = Option.map (getHashKey ctx) (processFile ctx r f).1 := by
  by_cases hpath : f.path = ""
  · rw [processFile_eq_throw ctx r f hpath,
      processFile_eq_throw ctx r' f hpath]
    exact ⟨rfl, rfl⟩
  · by_cases hhit : ∃ cached, r.get f.path = some cached ∧
        CacheHit ctx f cached
    · obtain ⟨c, hg, hc⟩ := hhit
      rw [processFile_eq_hit ctx r f c hg hc] at hsame ⊢
      have hg' : r'.get f.path = some c := by
        rw [hsame]
        exact hg
      rw [processFile_eq_hit ctx r' f c hg' hc]
      exact ⟨rfl, rfl⟩
    · have hmiss : ∀ cached, r.get f.path = some cached →
          ¬ CacheHit ctx f cached := fun c hg hc => hhit ⟨c, hg, hc⟩
      rw [processFile_eq_compute ctx r f hpath hmiss] at hsame ⊢
      cases hread : ctx.readBinary f.path with
      | none =>
        rw [processFileCompute_eq_none ctx r f hread] at hsame ⊢
        have hmiss' : ∀ cached, r'.get f.path = some cached →
            ¬ CacheHit ctx f cached := by
          intro c hg hc
          rw [hsame] at hg
          exact hmiss c hg hc
        rw [processFile_eq_compute ctx r' f hpath hmiss',
          processFileCompute_eq_none ctx r' f hread]
        exact ⟨rfl, rfl⟩
      | some data =>
        rw [processFileCompute_eq_some ctx r f data hread] at hsame ⊢
        have hstamped : r'.get f.path
            = some { computeFileMeta ctx f data with path := some f.path } := by
          rw [hsame]
          exact registry_get_set_valid_self r f.path _ hpath
            (isValidFileMeta_computeFileMeta ctx f data)
        have hfields := computeFileMeta_fields ctx f data
        have hcht : CacheHit ctx f
            { computeFileMeta ctx f data with path := some f.path } :=
          ⟨hfields.1, hfields.2.1, hfields.2.2⟩
        rw [processFile_eq_hit ctx r' f _ hstamped hcht]
        refine ⟨rfl, ?_⟩
        simp only [Option.map_some']
        exact congrArg some (getHashKey_stamp ctx (computeFileMeta ctx f data)
          f.path)

theorem scanExactFold_get_notmem (ctx : ScanCtx) :
    ∀ (files : List TFile) (r : DuplicateRegistry)
      (gm : List (Option String × List TFile)) (p : String),
      p ∉ files.map TFile.path →
      (files.foldl (scanExactStep ctx) (r, gm)).1.get p = r.get p := by
  intro files
  induction files with
  | nil => intro r gm p _; rfl
  | cons f rest ih =>
    intro r gm p hp
    have hp1 : p ≠ f.path := fun h0 => hp (by simp [h0])
    have hp2 : p ∉ rest.map TFile.path := fun h0 => hp (by simp [h0])
    simp only [List.foldl_cons, scanExactStep_eq]
    rw [ih _ _ p hp2]
    exact processFile_get_ne ctx r f p hp1

theorem pushIfSome_congr (ctx : ScanCtx)
    (gm : List (Option String × List TFile)) (f : TFile)
    (o1 o2 : Option RawMeta)
    (h : Option.map (getHashKey ctx) o1 = Option.map (getHashKey ctx) o2) :
    pushIfSome ctx gm f o1 = pushIfSome ctx gm f o2 := by
  cases o1 with
  | none =>
    cases o2 with
    | none => rfl
    | some m2 => exact absurd h (by simp)
  | some m1 =>
    cases o2 with
    | none => exact absurd h (by simp)
    | some m2 =>
      simp only [Option.map_some', Option.some.injEq] at h
      simp only [pushIfSome, h]

/-- A second pass of the exact-scan fold over the same files, starting
from the registry the first pass produced, changes nothing: the registry
is already warm and every file resolves to the same grouping key. -/
theorem scanExactFold_idem (ctx : ScanCtx) :
    ∀ (files : List TFile) (r : DuplicateRegistry)
      (gm : List (Option String × List TFile)),
      (files.map TFile.path).Nodup →
      files.foldl (scanExactStep ctx)
        ((files.foldl (scanExactStep ctx) (r, gm)).1, gm)
        = files.foldl (scanExactStep ctx) (r, gm) := by
  intro files
  induction files with
  | nil => intro r gm _; rfl
  | cons f rest ih =>
    intro r gm hnd
    simp only [List.map_cons, List.nodup_cons] at hnd
    set rA := (processFile ctx r f).2.1 with hrA
    set gmA := pushIfSome ctx gm f (processFile ctx r f).1 with hgmA
    have hfold1 : (f :: rest).foldl (scanExactStep ctx) (r, gm)
        = rest.foldl (scanExactStep ctx) (rA, gmA) := by
      simp only [List.foldl_cons, scanExactStep_eq, hrA, hgmA]
    have hget : ((rest.foldl (scanExactStep ctx) (rA, gmA)).1).get f.path
        = rA.get f.path :=
      scanExactFold_get_notmem ctx rest rA gmA f.path hnd.1
    have hstable := processFile_stable ctx r
      ((rest.foldl (scanExactStep ctx) (rA, gmA)).1) f (by rw [hget])
    have hstep2 : scanExactStep ctx
        ((rest.foldl (scanExactStep ctx) (rA, gmA)).1, gm) f
        = ((rest.foldl (scanExactStep ctx) (rA, gmA)).1, gmA) := by
      rw [scanExactStep_eq]
      congr 1
      · exact hstable.1
      · rw [hgmA]
        exact pushIfSome_congr ctx gm f _ _ hstable.2
    rw [hfold1, List.foldl_cons, hstep2]
    exact ih rA gmA hnd.2

theorem calcSimLexical_spec (memo : List (String × ℝ)) (c1 c2 : String)
    (f1 f2 : TFile) (key : String) (calls : List ScorerCall) :
    (calcSimLexical memo c1 c2 f1 f2 key calls).1.file1 = f1 ∧
    (calcSimLexical memo c1 c2 f1 f2 key calls).1.file2 = f2 ∧
    getEntry (calcSimLexical memo c1 c2 f1 f2 key calls).2.1 key
      = some (calcSimLexical memo c1 c2 f1 f2 key calls).1.score ∧
    ∀ q, q ≠ key →
      getEntry (calcSimLexical memo c1 c2 f1 f2 key calls).2.1 q
        = getEntry memo q := by
  refine ⟨rfl, rfl, getEntry_setEntry_self _ _ _, ?_⟩
  intro q hq
  exact getEntry_setEntry_ne _ _ _ _ hq

theorem calcSimVector_spec (ctx : ScanCtx)
    (vectors : List (String × List ℝ)) (memo : List (String × ℝ))
    (c1 c2 : String) (f1 f2 : TFile) (key : String)
    (calls : List ScorerCall) :
    (calcSimVector ctx vectors memo c1 c2 f1 f2 key calls).1.file1 = f1 ∧
    (calcSimVector ctx vectors memo c1 c2 f1 f2 key calls).1.file2 = f2 ∧
    getEntry (calcSimVector ctx vectors memo c1 c2 f1 f2 key calls).2.1 key
      = some (calcSimVector ctx vectors memo c1 c2 f1 f2 key calls).1.score ∧
    ∀ q, q ≠ key →
      getEntry (calcSimVector ctx vectors memo c1 c2 f1 f2 key calls).2.1 q
        = getEntry memo q := by
  unfold calcSimVector
  cases h1 : getEntry vectors f1.path with
  | none =>
    cases h2 : getEntry vectors f2.path with
    | none => exact calcSimLexical_spec memo c1 c2 f1 f2 key calls
    | some v2 => exact calcSimLexical_spec memo c1 c2 f1 f2 key calls
  | some v1 =>
    cases h2 : getEntry vectors f2.path with
    | none => exact calcSimLexical_spec memo c1 c2 f1 f2 key calls
    | some v2 =>
      simp only []
      by_cases hth : ctx.vectorSim v1 v2 ≥ (ctx.settings.similarityThreshold : ℝ)
      · rw [if_pos hth]
        refine ⟨rfl, rfl, getEntry_setEntry_self _ _ _, ?_⟩
        intro q hq
        exact getEntry_setEntry_ne _ _ _ _ hq
      · rw [if_neg hth]
        have hs := calcSimLexical_spec (setEntry memo key (ctx.vectorSim v1 v2))
          c1 c2 f1 f2 key (calls ++ [ScorerCall.vector])
        refine ⟨hs.1, hs.2.1, hs.2.2.1, ?_⟩
        intro q hq
        rw [hs.2.2.2 q hq]
        exact getEntry_setEntry_ne _ _ _ _ hq

theorem calculateSimilarity_cached (ctx : ScanCtx)
    (vectors : List (String × List ℝ)) (memo : List (String × ℝ))
    (c1 c2 : String) (f1 f2 : TFile) (s : ℝ)
    (h : getEntry memo (pairKey f1.path f2.path) = some s) :
    calculateSimilarity ctx vectors memo c1 c2 f1 f2
      = (⟨f1, f2, s, SimMethod.cached⟩, memo, []) := by
  simp only [calculateSimilarity, h]

theorem calculateSimilarity_fresh (ctx : ScanCtx)
    (vectors : List (String × List ℝ)) (memo : List (String × ℝ))
    (c1 c2 : String) (f1 f2 : TFile)
    (h : getEntry memo (pairKey f1.path f2.path) = none) :
    (calculateSimilarity ctx vectors memo c1 c2 f1 f2).1.file1 = f1 ∧
    (calculateSimilarity ctx vectors memo c1 c2 f1 f2).1.file2 = f2 ∧
    getEntry (calculateSimilarity ctx vectors memo c1 c2 f1 f2).2.1
        (pairKey f1.path f2.path)
      = some (calculateSimilarity ctx vectors memo c1 c2 f1 f2).1.score ∧
    ∀ q, q ≠ pairKey f1.path f2.path →
      getEntry (calculateSimilarity ctx vectors memo c1 c2 f1 f2).2.1 q
        = getEntry memo q := by
  simp only [calculateSimilarity, h]
  cases hsz : sizeFilterGuard c1 c2 with
  | true =>
    rw [if_pos rfl]
    exact ⟨rfl, rfl, getEntry_setEntry_self _ _ _,
      fun q hq => getEntry_setEntry_ne _ _ _ _ hq⟩
  | false =>
    simp only [Bool.false_eq_true, if_false]
    cases hsem : hasSemantic ctx with
    | false =>
      simp only [Bool.false_eq_true, if_false]
      exact calcSimLexical_spec memo c1 c2 f1 f2 _ []
    | true =>
      rw [if_pos rfl]
      cases hjud : ctx.judgeSim c1 c2 with
      | none =>
        exact calcSimVector_spec ctx vectors memo c1 c2 f1 f2 _ _
      | some llmScore =>
        simp only []
        by_cases hth : llmScore ≥ (ctx.settings.similarityThreshold : ℝ)
        · rw [if_pos hth]
          refine ⟨rfl, rfl, getEntry_setEntry_self _ _ _, ?_⟩
          intro q hq
          exact getEntry_setEntry_ne _ _ _ _ hq
        · rw [if_neg hth]
          have hs := calcSimVector_spec ctx vectors
            (setEntry memo (pairKey f1.path f2.path) llmScore) c1 c2 f1 f2
            (pairKey f1.path f2.path) [ScorerCall.judge]
          refine ⟨hs.1, hs.2.1, hs.2.2.1, ?_⟩
          intro q hq
          rw [hs.2.2.2 q hq]
          exact getEntry_setEntry_ne _ _ _ _ hq

theorem comparePairsStep_eq_skip_left (ctx : ScanCtx)
    (contents : List (String × String)) (vectors : List (String × List ℝ))
    (p : TFile × TFile) (hc1 : getEntry contents p.1.path = none)
    (st : List SimilarityResult × List (String × ℝ)) :
    comparePairsStep ctx contents vectors st p = st := by
  unfold comparePairsStep
  rw [hc1]
  cases getEntry contents p.2.path <;> rfl

theorem comparePairsStep_eq_skip_right (ctx : ScanCtx)
    (contents : List (String × String)) (vectors : List (String × List ℝ))
    (p : TFile × TFile) (hc2 : getEntry contents p.2.path = none)
    (st : List SimilarityResult × List (String × ℝ)) :
    comparePairsStep ctx contents vectors st p = st := by
  unfold comparePairsStep
  rw [hc2]
  cases getEntry contents p.1.path <;> rfl

theorem comparePairsStep_eq_content (ctx : ScanCtx)
    (contents : List (String × String)) (vectors : List (String × List ℝ))
    (p : TFile × TFile) (c1 c2 : String)
    (hc1 : getEntry contents p.1.path = some c1)
    (hc2 : getEntry contents p.2.path = some c2)
    (st : List SimilarityResult × List (String × ℝ)) :
    comparePairsStep ctx contents vectors st p =
      if c1 = "" ∨ c2 = "" then st
      else
        if (ctx.settings.similarityThreshold : ℝ)
            ≤ (calculateSimilarity ctx vectors st.2 c1 c2 p.1 p.2).1.score then
          (st.1 ++ [(calculateSimilarity ctx vectors st.2 c1 c2 p.1 p.2).1],
            (calculateSimilarity ctx vectors st.2 c1 c2 p.1 p.2).2.1)
        else (st.1, (calculateSimilarity ctx vectors st.2 c1 c2 p.1 p.2).2.1) := by
  unfold comparePairsStep
  rw [hc1, hc2]

theorem comparePairsStep_mono (ctx : ScanCtx)
    (contents : List (String × String)) (vectors : List (String × List ℝ))
    (st : List SimilarityResult × List (String × ℝ)) (p : TFile × TFile)
    (k : String) (s : ℝ) (h : getEntry st.2 k = some s) :
    getEntry (comparePairsStep ctx contents vectors st p).2 k = some s := by
  cases hc1 : getEntry contents p.1.path with
  | none => rw [comparePairsStep_eq_skip_left ctx contents vectors p hc1 st]; exact h
  | some c1 =>
    cases hc2 : getEntry contents p.2.path with
    | none =>
      rw [comparePairsStep_eq_skip_right ctx contents vectors p hc2 st]
      exact h
    | some c2 =>
      rw [comparePairsStep_eq_content ctx contents vectors p c1 c2 hc1 hc2 st]
      by_cases hemp : c1 = "" ∨ c2 = ""
      · rw [if_pos hemp]; exact h
      · rw [if_neg hemp]
        cases hmk : getEntry st.2 (pairKey p.1.path p.2.path) with
        | some s0 =>
          rw [calculateSimilarity_cached ctx vectors st.2 c1 c2 p.1 p.2 s0 hmk]
          by_cases hth : (ctx.settings.similarityThreshold : ℝ) ≤ s0
          · rw [if_pos hth]; exact h
          · rw [if_neg hth]; exact h
        | none =>
          have hfr := calculateSimilarity_fresh ctx vectors st.2 c1 c2
            p.1 p.2 hmk
          have hkne : k ≠ pairKey p.1.path p.2.path := by
            intro h0
            rw [h0, hmk] at h
            exact Option.noConfusion h
          by_cases hth : (ctx.settings.similarityThreshold : ℝ)
              ≤ (calculateSimilarity ctx vectors st.2 c1 c2 p.1 p.2).1.score
          · rw [if_pos hth]
            rw [show ((st.1 ++ [(calculateSimilarity ctx vectors st.2 c1 c2
                p.1 p.2).1],
                (calculateSimilarity ctx vectors st.2 c1 c2 p.1 p.2).2.1)).2
              = (calculateSimilarity ctx vectors st.2 c1 c2 p.1 p.2).2.1
              from rfl]
            rw [hfr.2.2.2 k hkne]
            exact h
          · rw [if_neg hth]
            rw [show ((st.1, (calculateSimilarity ctx vectors st.2 c1 c2
                p.1 p.2).2.1)).2
              = (calculateSimilarity ctx vectors st.2 c1 c2 p.1 p.2).2.1
              from rfl]
            rw [hfr.2.2.2 k hkne]
            exact h

theorem comparePairs_mono (ctx : ScanCtx)
    (contents : List (String × String)) (vectors : List (String × List ℝ)) :
    ∀ (pairs : List (TFile × TFile))
      (st : List SimilarityResult × List (String × ℝ)) (k : String) (s : ℝ),
      getEntry st.2 k = some s →
      getEntry (pairs.foldl (comparePairsStep ctx contents vectors) st).2 k
        = some s := by
  intro pairs
  induction pairs with
  | nil => intro st k s h; exact h
  | cons p rest ih =>
    intro st k s h
    rw [List.foldl_cons]
    exact ih _ k s (comparePairsStep_mono ctx contents vectors st p k s h)

/-- The grouping-relevant data of a similarity edge: its two files and
its score (the method tag is never consulted by the group builder). -/
def edgeData (e : SimilarityResult) : TFile × TFile × ℝ :=
  (e.file1, e.file2, e.score)

/-- Replaying the comparison loop with the memo its first run produced
changes no memo entry and yields a similarity list with the same files
and scores (methods may flip to `cached`). -/
theorem comparePairs_replay (ctx : ScanCtx)
    (contents : List (String × String)) (vectors : List (String × List ℝ)) :
    ∀ (pairs : List (TFile × TFile)) (sims1 sims2 : List SimilarityResult)
      (m : List (String × ℝ)),
      sims2.map edgeData = sims1.map edgeData →
      (pairs.foldl (comparePairsStep ctx contents vectors)
          (sims2, (pairs.foldl (comparePairsStep ctx contents vectors)
            (sims1, m)).2)).2
        = (pairs.foldl (comparePairsStep ctx contents vectors) (sims1, m)).2 ∧
      (pairs.foldl (comparePairsStep ctx contents vectors)
          (sims2, (pairs.foldl (comparePairsStep ctx contents vectors)
            (sims1, m)).2)).1.map edgeData
        = (pairs.foldl (comparePairsStep ctx contents vectors)
            (sims1, m)).1.map edgeData := by
  intro pairs
  induction pairs with
  | nil => intro sims1 sims2 m h; exact ⟨rfl, h⟩
  | cons p rest ih =>
    intro sims1 sims2 m h
    cases hc1 : getEntry contents p.1.path with
    | none =>
      simp only [List.foldl_cons,
        comparePairsStep_eq_skip_left ctx contents vectors p hc1]
      exact ih sims1 sims2 m h
    | some c1 =>
      cases hc2 : getEntry contents p.2.path with
      | none =>
        simp only [List.foldl_cons,
          comparePairsStep_eq_skip_right ctx contents vectors p hc2]
        exact ih sims1 sims2 m h
      | some c2 =>
        simp only [List.foldl_cons,
          comparePairsStep_eq_content ctx contents vectors p c1 c2 hc1 hc2]
        by_cases hemp : c1 = "" ∨ c2 = ""
        · simp only [if_pos hemp]
          exact ih sims1 sims2 m h
        · simp only [if_neg hemp]
          cases hmk : getEntry m (pairKey p.1.path p.2.path) with
          | some s0 =>
            rw [calculateSimilarity_cached ctx vectors m c1 c2 p.1 p.2 s0 hmk]
            simp only []
            by_cases hth0 : (ctx.settings.similarityThreshold : ℝ) ≤ s0
            · simp only [if_pos hth0]
              have hM := comparePairs_mono ctx contents vectors rest
                (sims1 ++ [⟨p.1, p.2, s0, SimMethod.cached⟩], m)
                (pairKey p.1.path p.2.path) s0 hmk
              rw [calculateSimilarity_cached ctx vectors _ c1 c2 p.1 p.2
                s0 hM]
              simp only [if_pos hth0]
              exact ih (sims1 ++ [⟨p.1, p.2, s0, SimMethod.cached⟩])
                (sims2 ++ [⟨p.1, p.2, s0, SimMethod.cached⟩]) m
                (by simp [h])
            · simp only [if_neg hth0]
              have hM := comparePairs_mono ctx contents vectors rest
                (sims1, m) (pairKey p.1.path p.2.path) s0 hmk
              rw [calculateSimilarity_cached ctx vectors _ c1 c2 p.1 p.2
                s0 hM]
              simp only [if_neg hth0]
              exact ih sims1 sims2 m h
          | none =>
            have hfr := calculateSimilarity_fresh ctx vectors m c1 c2
              p.1 p.2 hmk
            by_cases hth0 : (ctx.settings.similarityThreshold : ℝ)
                ≤ (calculateSimilarity ctx vectors m c1 c2 p.1 p.2).1.score
            · simp only [if_pos hth0]
              have hM := comparePairs_mono ctx contents vectors rest
                (sims1 ++ [(calculateSimilarity ctx vectors m c1 c2
                    p.1 p.2).1],
                  (calculateSimilarity ctx vectors m c1 c2 p.1 p.2).2.1)
                (pairKey p.1.path p.2.path)
                (calculateSimilarity ctx vectors m c1 c2 p.1 p.2).1.score
                hfr.2.2.1
              rw [calculateSimilarity_cached ctx vectors _ c1 c2 p.1 p.2
                _ hM]
              simp only [if_pos hth0]
              refine ih _ _ _ ?_
              rw [List.map_append, List.map_append, h]
              congr 1
              simp only [List.map_cons, List.map_nil, edgeData]
              rw [hfr.1, hfr.2.1]
            · simp only [if_neg hth0]
              have hM := comparePairs_mono ctx contents vectors rest
                (sims1,
                  (calculateSimilarity ctx vectors m c1 c2 p.1 p.2).2.1)
                (pairKey p.1.path p.2.path)
                (calculateSimilarity ctx vectors m c1 c2 p.1 p.2).1.score
                hfr.2.2.1
              rw [calculateSimilarity_cached ctx vectors _ c1 c2 p.1 p.2
                _ hM]
              simp only [if_neg hth0]
              exact ih sims1 sims2
                (calculateSimilarity ctx vectors m c1 c2 p.1 p.2).2.1 h

theorem unionStep_congr (st : GroupsState) (e1 e2 : SimilarityResult)
    (h : edgeData e1 = edgeData e2) : unionStep st e1 = unionStep st e2 := by
  have h1 : e1.file1 = e2.file1 := congrArg (fun d => d.1) h
  have h2 : e1.file2 = e2.file2 := congrArg (fun d => d.2.1) h
  simp only [unionStep, h1, h2]

theorem foldlM_unionStep_congr :
    ∀ (l1 l2 : List SimilarityResult) (st : GroupsState),
      l1.map edgeData = l2.map edgeData →
      l1.foldlM unionStep st = l2.foldlM unionStep st := by
  intro l1
  induction l1 with
  | nil =>
    intro l2 st h
    cases l2 with
    | nil => rfl
    | cons e2 r2 => exact absurd h (by simp)
  | cons e1 r1 ih =>
    intro l2 st h
    cases l2 with
    | nil => exact absurd h (by simp)
    | cons e2 r2 =>
      simp only [List.map_cons, List.cons.injEq] at h
      rw [List.foldlM_cons, List.foldlM_cons, unionStep_congr st e1 e2 h.1]
      cases unionStep st e2 with
      | none => rfl
      | some st1 => exact ih r2 st1 h.2

theorem filter_both_mem_congr (fs : List TFile) :
    ∀ (l1 l2 : List SimilarityResult), l1.map edgeData = l2.map edgeData →
      (l1.filter (fun sim =>
        decide (sim.file1 ∈ fs) && decide (sim.file2 ∈ fs))).map edgeData
        = (l2.filter (fun sim =>
          decide (sim.file1 ∈ fs) && decide (sim.file2 ∈ fs))).map edgeData := by
  intro l1
  induction l1 with
  | nil =>
    intro l2 h
    cases l2 with
    | nil => rfl
    | cons e2 r2 => exact absurd h (by simp)
  | cons e1 r1 ih =>
    intro l2 h
    cases l2 with
    | nil => exact absurd h (by simp)
    | cons e2 r2 =>
      simp only [List.map_cons, List.cons.injEq] at h
      have h1 : e1.file1 = e2.file1 := congrArg (fun d => d.1) h.1
      have h2 : e1.file2 = e2.file2 := congrArg (fun d => d.2.1) h.1
      simp only [List.filter_cons, h1, h2]
      by_cases hm : (decide (e2.file1 ∈ fs) && decide (e2.file2 ∈ fs)) = true
      · rw [if_pos hm, if_pos hm, List.map_cons, List.map_cons, h.1,
          ih r2 h.2]
      · rw [if_neg hm, if_neg hm]
        exact ih r2 h.2

theorem groupAvg_congr (s : Settings) (l1 l2 : List SimilarityResult)
    (fs : List TFile) (h : l1.map edgeData = l2.map edgeData) :
    groupAvg s l1 fs = groupAvg s l2 fs := by
  have hf := filter_both_mem_congr fs l1 l2 h
  have hlen : (l1.filter (fun sim =>
      decide (sim.file1 ∈ fs) && decide (sim.file2 ∈ fs))).length
      = (l2.filter (fun sim =>
        decide (sim.file1 ∈ fs) && decide (sim.file2 ∈ fs))).length := by
    have := congrArg List.length hf
    simpa using this
  have hsum : ((l1.filter (fun sim =>
      decide (sim.file1 ∈ fs) && decide (sim.file2 ∈ fs))).map
        SimilarityResult.score).sum
      = ((l2.filter (fun sim =>
        decide (sim.file1 ∈ fs) && decide (sim.file2 ∈ fs))).map
          SimilarityResult.score).sum := by
    have := congrArg (fun l => (l.map (fun d : TFile × TFile × ℝ =>
      d.2.2)).sum) hf
    simpa [List.map_map, Function.comp] using this
  simp only [groupAvg]
  rw [hlen, hsum]

theorem emitGroups_congr (s : Settings) (l1 l2 : List SimilarityResult)
    (h : l1.map edgeData = l2.map edgeData) :
    ∀ (gl : List (String × List TFile)) (idx : Nat),
      emitGroups s l1 gl idx = emitGroups s l2 gl idx := by
  intro gl
  induction gl with
  | nil => intro idx; rfl
  | cons hd tl ih =>
    intro idx
    obtain ⟨gid, fs⟩ := hd
    rw [emitGroups, emitGroups]
    by_cases hlen : 1 < fs.length
    · rw [if_pos hlen, if_pos hlen, groupAvg_congr s l1 l2 fs h, ih (idx + 1)]
    · rw [if_neg hlen, if_neg hlen, ih idx]

theorem groupSimilarFiles_congr (s : Settings)
    (l1 l2 : List SimilarityResult) (h : l1.map edgeData = l2.map edgeData) :
    groupSimilarFiles s l1 = groupSimilarFiles s l2 := by
  unfold groupSimilarFiles
  rw [foldlM_unionStep_congr l1 l2 emptyGroupsState h]
  cases l2.foldlM unionStep emptyGroupsState with
  | none => rfl
  | some st =>
    simp only [Option.map_some']
    rw [emitGroups_congr s l1 l2 h st.groups 0]

/-- A second exact scan over the same files, starting from the registry
the first produced, returns the same groups and the same registry. -/
theorem scanExactDuplicates_idem (ctx : ScanCtx) (r : DuplicateRegistry)
    (files : List TFile) (hnd : (files.map TFile.path).Nodup) :
    scanExactDuplicates ctx (scanExactDuplicates ctx r files).2 files
      = scanExactDuplicates ctx r files := by
  have hid := scanExactFold_idem ctx files r [] hnd
  rw [scanExactDuplicates_eq ctx r files]
  simp only []
  rw [scanExactDuplicates_eq ctx _ files, hid]

/-- A second near scan over the same files, starting from the scanner
state the first produced, returns the same groups and the same state:
the replayed comparisons all hit the warm pair memo. -/
theorem scanNearDuplicates_idem (ctx : ScanCtx) (stt : ScanState)
    (files : List TFile) :
    scanNearDuplicates ctx (scanNearDuplicates ctx stt files).2 files
      = scanNearDuplicates ctx stt files := by
  simp only [scanNearDuplicates]
  have hrep := comparePairs_replay ctx
    ((files.take (min files.length 500)).foldl (readPassStep ctx)
      ([], [], 0)).1
    ((files.take (min files.length 500)).foldl (readPassStep ctx)
      ([], [], 0)).2.1
    (generateOptimalComparisonPairs (files.take (min files.length 500))
      (min ((files.take (min files.length 500)).length *
        ((files.take (min files.length 500)).length - 1) / 2) 10000))
    [] [] stt.memo rfl
  congr 1
  · exact groupSimilarFiles_congr ctx.settings _ _ hrep.2
  · exact congrArg (fun m => ScanState.mk stt.registry m) hrep.1

/-- A full scan is idempotent on the scanner as a whole: run again from
the state it produced, with the same document store, it returns the same
groups and the same state. -/
theorem scan_idem_full (ctx : ScanCtx) (st0 : ScanState)
    (hnd : (ctx.files.map TFile.path).Nodup) :
    scan ctx (scan ctx st0).2 = scan ctx st0 := by
  have hvfnd : (((ctx.files.filter (fun f => !(shouldIgnoreFile f
      ctx.settings.ignorePaths ctx.settings.sizeCapMB))).mergeSort
        (fun a b => decide (b.size ≤ a.size))).map TFile.path).Nodup := by
    have hsub : ((ctx.files.filter (fun f => !(shouldIgnoreFile f
        ctx.settings.ignorePaths ctx.settings.sizeCapMB))).map
          TFile.path).Sublist (ctx.files.map TFile.path) :=
      (List.filter_sublist _).map TFile.path
    have hfnd := hnd.sublist hsub
    have hperm : ((ctx.files.filter (fun f => !(shouldIgnoreFile f
        ctx.settings.ignorePaths ctx.settings.sizeCapMB))).mergeSort
          (fun a b => decide (b.size ≤ a.size))).Perm
        (ctx.files.filter (fun f => !(shouldIgnoreFile f
          ctx.settings.ignorePaths ctx.settings.sizeCapMB))) :=
      List.mergeSort_perm _ _
    exact ((hperm.map TFile.path).nodup_iff).mpr hfnd
  by_cases hmode : ctx.settings.duplicateType = .near
  · simp only [scan, if_pos hmode]
    exact scanNearDuplicates_idem ctx st0 _
  · simp only [scan, if_neg hmode]
    rw [scanExactDuplicates_idem ctx st0.registry _ hvfnd]

/-- C8: with an unchanged document store (and the vault's invariant that
document paths are unique), running scan a second time from the scanner
state the first run produced yields the same duplicate-group list (same
groups, same membership, same keys), and the metadata registry holds the
same number of entries after the second run as after the first. -/
theorem scan_idempotent (ctx : ScanCtx) (st0 : ScanState)
    (hnd : (ctx.files.map TFile.path).Nodup) :
    (scan ctx (scan ctx st0).2).1 = (scan ctx st0).1 ∧
    (scan ctx (scan ctx st0).2).2.registry.size
      = (scan ctx st0).2.registry.size := by
  rw [scan_idem_full ctx st0 hnd]
  exact ⟨rfl, rfl⟩

theorem scan_idempotent_witness :
    ((ctxC2.files.map TFile.path).Nodup) ∧
    ((scan ctxC2 (scan ctxC2 ⟨⟨[]⟩, []⟩).2).1
        = (scan ctxC2 ⟨⟨[]⟩, []⟩).1 ∧
      (scan ctxC2 (scan ctxC2 ⟨⟨[]⟩, []⟩).2).2.registry.size
        = (scan ctxC2 ⟨⟨[]⟩, []⟩).2.registry.size) :=
  ⟨by decide, scan_idempotent ctxC2 ⟨⟨[]⟩, []⟩ (by decide)⟩

end Dedup
